import Mathlib

/-!
# Verification of the COIL codec (`enc.py` / `dec.py`)

Shallow embedding of the COIL encoder and decoder.  Python strings are
modelled as `List Char` (`Str`), Python dicts with string keys as
association lists in insertion order.  All definitions follow the source
files `enc.py` and `dec.py`; the legacy (`compact=False`) *encoding*
branch is not modelled (no claim concerns it), but the decoder's legacy
row branch is modelled because the decoder auto-detects row formats.

Machine-specific caveats, noted where relevant:
* `re` word characters (`\w`) and `str.lower` are modelled for the ASCII
  range (all tokens the encoder builds are ASCII).
* The `tiktoken` branch of `_token_count` is an external oracle that is
  unavailable in the environment under analysis; the modelled cost
  function is the documented fallback `max(1, (len(text)+3)//4)`.
-/

namespace COIL

set_option maxRecDepth 40000
/-- Python strings, modelled as lists of characters. -/
abbrev Str := List Char

/-- Shorthand: characters of a Lean string literal. -/
def ch (s : String) : Str := s.data

/-- A record: a Python dict from field name to (string) value, as an
association list in insertion order. -/
abbrev Rec := List (Str × Str)

/-! ## Escape codec (`enc.py` lines 31-49) -/

/-- `ESCAPE_CHAR = '\\'` -/
def ESCAPE_CHAR : Char := '\\'

/-- Python `s.replace(old, new)` for a single-character `old`. -/
def pyReplace (old : Char) (new : Str) : Str → Str
  | [] => []
  | c :: rest => (if c = old then new else [c]) ++ pyReplace old new rest

/-- `_escape_val` (`enc.py` 31-37): escape backslash first, then `:`,
`|`, `,`. -/
def escapeVal (v : Str) : Str :=
  pyReplace ',' ['\\', ',']
    (pyReplace '|' ['\\', '|']
      (pyReplace ':' ['\\', ':']
        (pyReplace '\\' ['\\', '\\'] v)))

/-- `_unescape_val` (`enc.py` 39-49, identical in `dec.py` 9-19): a
backslash followed by any character yields that character; a trailing
lone backslash is kept. -/
def unescapeVal : Str → Str
  | [] => []
  | e :: c :: rest =>
      if e = ESCAPE_CHAR then c :: unescapeVal rest
      else e :: unescapeVal (c :: rest)
  | [c] => [c]

/-- The four characters `_escape_val` escapes. -/
def isSpecial (c : Char) : Bool :=
  c = '\\' || c = ':' || c = '|' || c = ','

/-- Per-character unit of the escape codec: special characters get a
backslash prepended. -/
def escUnit (c : Char) : Str :=
  if isSpecial c then ['\\', c] else [c]

/-! ## Cost oracle fallback (`enc.py` 26-29) -/

/-- `_token_count` with `tiktoken` unavailable:
`max(1, (len(text) + 3) // 4)`. -/
def tokenCount (text : Str) : Nat :=
  max 1 ((text.length + 3) / 4)

/-! ## String utilities shared by encoder and decoder -/

/-- Python `sep.join(parts)` for a single-character separator. -/
def joinC (sep : Char) (parts : List Str) : Str :=
  List.intercalate [sep] parts

/-- Python `s.split(sep)` for a single-character separator: splits at
every occurrence, `''.split(sep) == ['']`. -/
def splitC (sep : Char) (s : Str) : List Str := s.splitOn sep

/-- Python `s.split(sep, 1)` when the separator occurs (`none` when it
does not, in which case Python would return `[s]`). -/
def splitFirst (sep : Char) : Str → Option (Str × Str)
  | [] => none
  | c :: rest =>
    if c = sep then some ([], rest)
    else
      match splitFirst sep rest with
      | none => none
      | some (a, b) => some (c :: a, b)

/-- Python `str.isspace` characters (`str.strip()` strips these): the
full CPython whitespace table — the ASCII range, the C0/C1 separators
U+1C-U+1F and U+85, and the Unicode spaces U+A0, U+1680, U+2000-U+200A,
U+2028, U+2029, U+202F, U+205F, U+3000. -/
def pyIsSpace (c : Char) : Bool :=
  c = ' ' || c = '\t' || c = '\n' || c = '\r' || c = '\x0b' || c = '\x0c' ||
  c = '\x1c' || c = '\x1d' || c = '\x1e' || c = '\x1f' || c = '\x85' ||
  c = '\xa0' || c = '\u1680' ||
  c = '\u2000' || c = '\u2001' || c = '\u2002' || c = '\u2003' ||
  c = '\u2004' || c = '\u2005' || c = '\u2006' || c = '\u2007' ||
  c = '\u2008' || c = '\u2009' || c = '\u200A' ||
  c = '\u2028' || c = '\u2029' || c = '\u202F' || c = '\u205F' || c = '\u3000'

/-- `row.strip() == ''`. -/
def isBlankStr (s : Str) : Bool := s.all pyIsSpace

/-- A regex word character (`\w`), modelled for the ASCII range. -/
def wordChar (c : Char) : Bool := c.isAlphanum || c = '_'

/-- Python `str.lower`, modelled for the ASCII range (every token the
encoder manufactures is ASCII). -/
def lowerStr (s : Str) : Str := s.map Char.toLower

/-! ## Lexicographic order on strings and sorting (Python `sorted`) -/

/-- Python string `<`: lexicographic on code points. -/
def strLtb : Str → Str → Bool
  | [], [] => false
  | [], _ :: _ => true
  | _ :: _, [] => false
  | a :: s, b :: t => if a < b then true else if b < a then false else strLtb s t

/-- Boolean `≤` on strings. -/
def strLeb (a b : Str) : Bool := !strLtb b a

/-- One step of insertion sort with `strLeb`. -/
def insertStr (x : Str) : List Str → List Str
  | [] => [x]
  | y :: ys => if strLeb x y then x :: y :: ys else y :: insertStr x ys

/-- Insertion sort with `strLeb`; models Python `sorted` on a set of
strings (any correct sort produces the same strictly ascending list). -/
def sortStrs : List Str → List Str
  | [] => []
  | x :: xs => insertStr x (sortStrs xs)

/-- Strictly ascending in the Python string order. -/
def StrSorted (l : List Str) : Prop :=
  l.Pairwise (fun a b => strLtb a b = true)

/-! ## Decimal rendering of naturals (Python `str(i)` in f-strings) -/

/-- Little-endian decimal digits, structurally recursive on a fuel
bound (`fuel ≥ n` suffices; see `natDigitsRev_eq_digits`). -/
def natDigitsRev : Nat → Nat → List Nat
  | 0, _ => []
  | fuel + 1, n => if n = 0 then [] else n % 10 :: natDigitsRev fuel (n / 10)

/-- Decimal representation of a natural number, as produced by Python
`str(i)` inside `f"V{i}"`. -/
def natToStr (n : Nat) : Str :=
  if n = 0 then ['0'] else (natDigitsRev n n).reverse.map Nat.digitChar

/-- Strip the decimal digits back off. -/
def digitVals (s : Str) : List Nat := s.map (fun c => c.toNat - 48)

/-! ## Token shape: every token is `V` followed by decimal digits -/

/-- Shape of every token the optimizer manufactures (`V` then a
nonempty run of decimal digit characters). -/
def TokShape (t : Str) : Prop :=
  ∃ l : List Nat, (∀ d ∈ l, d < 10) ∧ l ≠ [] ∧ t = 'V' :: l.map Nat.digitChar

/-! ## Word collision (`_word_collision`, `enc.py` 60-66) -/

/-- One position of the regex search `\b tok \b`: the (already
lowercased) needle `t` matches `text` at index `i` with a word boundary
on each side.  The default `' '` for out-of-range neighbours is a
non-word character, so string ends count as boundaries. -/
def matchesAt (t text : Str) (i : Nat) : Bool :=
  ((text.drop i).take t.length == t) &&
  (i == 0 || !wordChar (text.getD (i - 1) ' ')) &&
  !wordChar (text.getD (i + t.length) ' ')

/-- `_word_collision(token, payload_text)`: search for the lowercased
token as a whole word.  `payload_text` is already lowercased by the
caller (`enc.py` 132).  `re.escape` never raises here, so the
`except re.error` fallback is dead code and not modelled. -/
def wordCollision (token text : Str) : Bool :=
  if token = [] then false
  else (List.range (text.length + 1)).any (fun i => matchesAt (lowerStr token) text i)

/-! ## JSON serialization (`json.dumps(payload, ensure_ascii=False)`) -/

/-- JSON string escaping of one character, as `json.dumps` with
`ensure_ascii=False` performs it (backslash, quote, the short control
escapes, `\u00XX` for other control characters; everything else is
passed through verbatim). -/
def jsonEscChar (c : Char) : Str :=
  if c = '\\' then ['\\', '\\']
  else if c = '"' then ['\\', '"']
  else if c = '\n' then ['\\', 'n']
  else if c = '\t' then ['\\', 't']
  else if c = '\r' then ['\\', 'r']
  else if c = '\x08' then ['\\', 'b']
  else if c = '\x0c' then ['\\', 'f']
  else if c.toNat < 32 then
    ['\\', 'u', '0', '0', Nat.digitChar (c.toNat / 16), Nat.digitChar (c.toNat % 16)]
  else [c]

/-- A JSON string literal. -/
def jsonStr (s : Str) : Str := '"' :: s.flatMap jsonEscChar ++ ['"']

/-- `json.dumps` of one record (a dict of strings), with the default
separators `", "` and `": "`, keys in insertion order. -/
def dumpRec (r : Rec) : Str :=
  '{' :: List.intercalate (ch ", ")
    (r.map fun p => jsonStr p.1 ++ ch ": " ++ jsonStr p.2) ++ ['}']

/-- `json.dumps` of the whole encode-input payload
`{"data": {"sensordata": [...]}, "q": ..., "mdu": ...}` (a payload whose
keys were inserted in that order; the optional passthrough extras are
modelled as string scalars). -/
def dumpPayload (records : List Rec) (q mdu : Option Str) : Str :=
  ch "\x7b\"data\": \x7b\"sensordata\": [" ++
    List.intercalate (ch ", ") (records.map dumpRec) ++ ch "]\x7d" ++
  (match q with
   | none => []
   | some v => ch ", \"q\": " ++ jsonStr v) ++
  (match mdu with
   | none => []
   | some v => ch ", \"mdu\": " ++ jsonStr v) ++
  ['}']

/-- `payload_text` (`enc.py` 132): the lowercased JSON dump. -/
def payloadText (records : List Rec) (q mdu : Option Str) : Str :=
  lowerStr (dumpPayload records q mdu)

/-! ## Key order (`enc.py` 130) -/

/-- The field names of a record, in insertion order. -/
def recKeys (r : Rec) : List Str := r.map Prod.fst

/-- `sorted({k for r in records for k in r.keys()})`: the set union of
all field names, sorted lexicographically. -/
def keyOrder (records : List Rec) : List Str :=
  sortStrs (records.flatMap recKeys).dedup

/-! ## Python dict operations -/

/-- Python `d[k] = v`: update in place if the key exists (keeping its
position), else append. -/
def dictUpd (tbl : List (Str × Str)) (k v : Str) : List (Str × Str) :=
  if tbl.any (fun p => p.1 == k) then
    tbl.map (fun p => if p.1 == k then (p.1, v) else p)
  else tbl ++ [(k, v)]

/-- Python `r.get(k, '')` on a dict of strings (`None` values are also
turned into `''` by the source, so they coincide with `''` here). -/
def recGet (r : Rec) (k : Str) : Str :=
  match r.lookup k with
  | some v => v
  | none => []

/-- `s.startswith(p)`. -/
def strStarts (p s : Str) : Bool := s.take p.length == p

/-! ## Body builder (`_build_positional_body`, `enc.py` 68-85) -/

/-- The body header `f"sensordata[{len(records)}]{{{','.join(key_order)}}}"`. -/
def bodyHeader (n : Nat) (ko : List Str) : Str :=
  ch "sensordata[" ++ natToStr n ++ ch "]\x7b" ++ joinC ',' ko ++ ['}']

/-- One compact positional row: for each key in order, the substitution
token if the value is in the working table, else the escaped value. -/
def buildRow (ko : List Str) (tbl : List (Str × Str)) (r : Rec) : Str :=
  joinC ',' (ko.map fun k =>
    let vs := recGet r k
    match tbl.lookup vs with
    | some tok => tok
    | none => escapeVal vs)

/-- `_build_positional_body`: header and rows joined with `|`. -/
def buildPositionalBody (records : List Rec) (ko : List Str)
    (tbl : List (Str × Str)) : Str :=
  joinC '|' (bodyHeader records.length ko :: records.map (buildRow ko tbl))

/-! ## Meta builder (compact mode) -/

/-- vmap entries `f"{t}:{v}"` computed from the (value → token) working
table, in insertion order (`enc.py` 199). -/
def vmapEntries (tbl : List (Str × Str)) : Str :=
  joinC ';' (tbl.map fun p => p.2 ++ ':' :: p.1)

/-- `meta_parts` during the optimizer loop: the `ORDER` declaration and,
when the working table is nonempty, the `vmap` declaration. -/
def metaParts (ko : List Str) (tbl : List (Str × Str)) : List Str :=
  (ch "ORDER=" ++ joinC ',' ko) ::
  (if tbl.isEmpty then [] else [ch "vmap=" ++ vmapEntries tbl])

/-- The meta string measured in the loop: `'META&' + '&'.join(meta_parts)`. -/
def metaFor (ko : List Str) (tbl : List (Str × Str)) : Str :=
  ch "META&" ++ joinC '&' (metaParts ko tbl)

/-- The text whose cost the optimizer measures:
`hypot_meta + '|' + hypot_body` (`enc.py` 153 and 203). -/
def innerText (records : List Rec) (ko : List Str)
    (tbl : List (Str × Str)) : Str :=
  metaFor ko tbl ++ '|' :: buildPositionalBody records ko tbl

/-! ## Value-token proposals (`_propose_value_tokens`, `enc.py` 87-112) -/

/-- `all_values`: every value of every record, in iteration order. -/
def allValues (records : List Rec) : List Str :=
  records.flatMap (fun r => r.map Prod.snd)

/-- `collections.Counter`: counts keyed by first occurrence, in
first-occurrence order. -/
def countVals (vals : List Str) : List (Str × Nat) :=
  vals.foldl (fun acc v =>
    if acc.any (fun p => p.1 == v) then
      acc.map (fun p => if p.1 == v then (p.1, p.2 + 1) else p)
    else acc ++ [(v, 1)]) []

/-- `[v for v, f in cnt.items() if f >= min_freq]`. -/
def candidatesOf (cnt : List (Str × Nat)) (minFreq : Nat) : List Str :=
  (cnt.filter (fun p => minFreq ≤ p.2)).map Prod.fst

/-- The ranking key `cnt[v] * len(str(v))`. -/
def benefit (cnt : List (Str × Nat)) (v : Str) : Nat :=
  ((cnt.lookup v).getD 0) * v.length

/-- Stable insertion for the descending benefit sort. -/
def insertRanked (cnt : List (Str × Nat)) (x : Str) : List Str → List Str
  | [] => [x]
  | y :: ys =>
    if benefit cnt y ≤ benefit cnt x then x :: y :: ys
    else y :: insertRanked cnt x ys

/-- `candidates.sort(key=lambda v: cnt[v] * len(str(v)), reverse=True)`:
stable, descending by estimated benefit. -/
def rankCandidates (cnt : List (Str × Nat)) : List Str → List Str
  | [] => []
  | x :: xs => insertRanked cnt x (rankCandidates cnt xs)

/-- Fuel that provably suffices for the collision-avoidance loop: the
`n`-suffixed candidates are pairwise distinct, at most
`(len(text)+1)^2` of them can occur in `text` at all, and at most
`used.length` can be already taken, so some candidate in the window is
free.  The Python loop is `while` with no bound; the fuel is never
exhausted (see `searchTok_not_bad`). -/
def tokFuel (ptext : Str) (usedLen : Nat) : Nat :=
  (ptext.length + 1) * (ptext.length + 1) + usedLen + 1

/-- The suffixing loop: try `base + str(n)`, `base + str(n+1)`, ... until
one is not `bad`. -/
def searchTok (bad : Str → Bool) (base : Str) : Nat → Nat → Str
  | 0, n => base ++ natToStr n
  | fuel + 1, n =>
    let cand := base ++ natToStr n
    if bad cand then searchTok bad base fuel (n + 1) else cand

/-- Token selection: keep `base` unless it is `bad`, else suffix. -/
def pickTok (bad : Str → Bool) (base : Str) (fuel : Nat) : Str :=
  if bad base then searchTok bad base fuel 1 else base

/-- Loop state of `_propose_value_tokens`. -/
structure PropSt where
  i : Nat
  used : List Str
  props : List (Str × Str)
deriving DecidableEq

/-- One iteration of the proposal loop (`enc.py` 100-111): synthesize
`f"V{i}"`, suffix away collisions with the payload text and with
already-used tokens, record the proposal. -/
def propStep (ptext : Str) (st : PropSt) (v : Str) : PropSt :=
  let bad := fun c => wordCollision c ptext || st.used.contains c
  let tok := pickTok bad ('V' :: natToStr st.i) (tokFuel ptext st.used.length)
  ⟨st.i + 1, st.used ++ [tok], st.props ++ [(v, tok)]⟩

/-- `_propose_value_tokens`: returns the ordered proposals
(value → token) and the counter. -/
def proposeValueTokens (records : List Rec) (ptext : Str) (minFreq : Nat) :
    List (Str × Str) × List (Str × Nat) :=
  let cnt := countVals (allValues records)
  let cands := rankCandidates cnt (candidatesOf cnt minFreq)
  let st := cands.foldl (propStep ptext) ⟨1, [], []⟩
  (st.props, cnt)

/-! ## Greedy accept loop (`enc.py` 161-209, compact branch) -/

/-- Loop state: `accepted` (value → token), `accepted_vmap`
(token → value), `current_tokens`. -/
structure OptSt where
  acc : List (Str × Str)
  accV : List (Str × Str)
  cur : Nat
deriving DecidableEq

/-- One candidate of the greedy loop: re-check the token against
already-accepted tokens and the payload text, measure the cost of the
hypothetical table, accept only on a strict improvement
(`gain = current_tokens - hypot_total_tokens; if gain > 0` over Python
ints is exactly `hypot < current`). -/
def acceptStep (records : List Rec) (ko : List Str) (ptext : Str)
    (st : OptSt) (cand : Str × Str) : OptSt :=
  let bad := fun c => st.accV.any (fun p => p.1 == c) || wordCollision c ptext
  let tok := pickTok bad cand.2 (tokFuel ptext st.accV.length)
  let hypTbl := dictUpd st.acc cand.1 tok
  let hypCost := tokenCount (innerText records ko hypTbl)
  if hypCost < st.cur then ⟨hypTbl, dictUpd st.accV tok cand.1, hypCost⟩ else st

/-! ## Encoder (`encode`, `enc.py` 114-250, compact mode) -/

/-- Input payload of `encode`: either an object without a `data` key, or
`{"data": {"sensordata": [records]}}` plus the optional passthrough
scalars `q` and `mdu` (modelled as strings). -/
inductive EncPayload where
  | noData
  | payload (records : List Rec) (q mdu : Option Str)
deriving DecidableEq

/-- Output of `encode`: the input returned unchanged (no `data` key), or
the object whose `data` was replaced by the meta/body pair (the
passthrough scalars stay at top level). -/
inductive EncOut where
  | untouched
  | encoded (meta body : Str) (q mdu : Option Str)
deriving DecidableEq

/-- The final meta string (`enc.py` 241-248): `ORDER`, then `vmap` from
`final_vmap` (token → value) when nonempty, then the passthrough
scalars `q` and `mdu`. -/
def finalMeta (ko : List Str) (accV : List (Str × Str))
    (q mdu : Option Str) : Str :=
  ch "META&" ++ joinC '&'
    ((ch "ORDER=" ++ joinC ',' ko) ::
     ((if accV.isEmpty then []
       else [ch "vmap=" ++ joinC ';' (accV.map fun p => p.1 ++ ':' :: p.2)]) ++
      (match q with | none => [] | some v => [ch "q=" ++ v]) ++
      (match mdu with | none => [] | some v => [ch "mdu=" ++ v])))

/-- `encode` with an explicit `value_min_freq` (default 2 in the
source).  The `if not proposed_vals` branch of the source coincides with
folding over an empty proposal list, so a single fold models both. -/
def encodeWith (minFreq : Nat) : EncPayload → EncOut
  | .noData => .untouched
  | .payload records q mdu =>
    let ko := keyOrder records
    let ptext := payloadText records q mdu
    let baseCost := tokenCount (innerText records ko [])
    let props := (proposeValueTokens records ptext minFreq).1
    let fin := props.foldl (acceptStep records ko ptext) ⟨[], [], baseCost⟩
    .encoded (finalMeta ko fin.accV q mdu)
      (ch "BODY|" ++ buildPositionalBody records ko fin.acc) q mdu

/-- `encode` with the default `value_min_freq=2`, compact mode. -/
def encode : EncPayload → EncOut := encodeWith 2

/-- The output the encoder produces when every substitution is rejected
(the baseline, empty-table encoding, including the passthrough meta
declarations). -/
def baselineOut : EncPayload → EncOut
  | .noData => .untouched
  | .payload records q mdu =>
    let ko := keyOrder records
    .encoded (finalMeta ko [] q mdu)
      (ch "BODY|" ++ buildPositionalBody records ko []) q mdu

/-! ## Decoder (`dec.py` 21-114) -/

/-- The error kinds `decode` raises (`ValueError`s in the source). -/
inductive DErr where
  | malformedContainer
  | notCoil
  | badHeader
deriving DecidableEq

/-- Decidable equality for decoder results (used to evaluate the
decoder on concrete inputs). -/
instance {e a : Type} [DecidableEq e] [DecidableEq a] :
    DecidableEq (Except e a) := fun x y =>
  match x, y with
  | .error u, .error v =>
    if h : u = v then .isTrue (h ▸ rfl)
    else .isFalse (fun hc => h (Except.error.inj hc))
  | .ok u, .ok v =>
    if h : u = v then .isTrue (h ▸ rfl)
    else .isFalse (fun hc => h (Except.ok.inj hc))
  | .error _, .ok _ => .isFalse Except.noConfusion
  | .ok _, .error _ => .isFalse Except.noConfusion

/-- Input to `decode`: `data` key absent, `data` not a dict, or a
`data` dict whose `meta`/`body` entries default to `''` when absent
(`new['data'].get('meta', '')`).  An already-decoded payload (whose
`data` is `{"sensordata": [...]}`) is `withData none none`. -/
inductive DecInput where
  | noData
  | dataNotDict
  | withData (meta body : Option Str)
deriving DecidableEq

/-- The header regex `re.match(r'sensordata\[(\d+)\]\{(.+)\}', header)`:
literal prefix, a maximal nonempty digit run followed by `]{`, then a
greedy `(.+)` (which cannot cross a newline) up to the last `}` on that
line, the group being nonempty; trailing characters are allowed
(`re.match` anchors only the start). -/
def parseHeader (s : Str) : Option (Str × Str) :=
  if strStarts (ch "sensordata[") s then
    let r1 := s.drop 11
    let ds := r1.takeWhile Char.isDigit
    if ds.isEmpty then none
    else
      let r2 := r1.drop ds.length
      if strStarts (ch "]\x7b") r2 then
        let r3 := r2.drop 2
        let line := r3.takeWhile (fun c => c ≠ '\n')
        let after := line.reverse.takeWhile (fun c => c ≠ '}')
        if after.length = line.length then none
        else
          let j := line.length - after.length - 1
          if j = 0 then none else some (ds, line.take j)
      else none
  else none

/-- Parse a `key:value`-shaped declaration list `a1:b1;a2:b2;...` into a
dict (used for `vmap` and for the legacy `map`). -/
def parsePairs (s : Str) : List (Str × Str) :=
  (splitC ';' s).foldl (fun acc e =>
    match splitFirst ':' e with
    | some (k, v) => dictUpd acc k v
    | none => acc) []

/-- One decoded row (`dec.py` 64-111): blank rows are skipped; a row
containing `:` is parsed as legacy `field:value` pairs (with the `map`
remapping when present); otherwise as compact positional cells zipped
with the header key list, missing trailing cells defaulting to `''`. -/
def decodeRow (vmap : List (Str × Str)) (metaKv : List (Str × Str))
    (keyList : List Str) (recs : List Rec) (row : Str) : List Rec :=
  if isBlankStr row then recs
  else if ':' ∈ row then
    let kvs := splitC ',' row
    let rec0 := kvs.foldl (fun (r : Rec) kv =>
      match splitFirst ':' kv with
      | none => r
      | some (sk, vv) =>
        let val := match vmap.lookup vv with
          | some v => v
          | none => unescapeVal vv
        dictUpd r sk val) []
    let rec1 := match metaKv.lookup (ch "map") with
      | some ms =>
        let s2l := parsePairs ms
        rec0.foldl (fun r2 p => dictUpd r2 ((s2l.lookup p.1).getD p.1) p.2) []
      | none => rec0
    recs ++ [rec1]
  else
    let cells := splitC ',' row
    let rec0 := keyList.enum.foldl (fun (r : Rec) p =>
      let vraw := cells.getD p.1 []
      let val := match vmap.lookup vraw with
        | some v => v
        | none => unescapeVal vraw
      dictUpd r p.2 val) []
    recs ++ [rec0]

/-- Meta parsing (`dec.py` 32-38): strip the marker, split the
declarations on `&`, build the key→value dict from the parts that
contain `=`. -/
def parseMetaKv (meta : Str) : List (Str × Str) :=
  let metaBody := meta.drop 5
  let metaPartsL := if metaBody.isEmpty then [] else splitC '&' metaBody
  metaPartsL.foldl (fun (acc : List (Str × Str)) p =>
    match splitFirst '=' p with
    | some (k, v) => dictUpd acc k v
    | none => acc) []

/-- vmap extraction (`dec.py` 40-46). -/
def vmapOf (metaKv : List (Str × Str)) : List (Str × Str) :=
  match metaKv.lookup (ch "vmap") with
  | some vs => if vs.isEmpty then [] else parsePairs vs
  | none => []

/-- The body of `decode` once `data` is known to be a dict: marker
checks, meta parsing, vmap extraction, header parsing, row decoding. -/
def decodeCore (meta body : Str) : Except DErr (List Rec) :=
  if strStarts (ch "META&") meta && strStarts (ch "BODY|") body then
    match splitC '|' (body.drop 5) with
    | [] => .ok []
    | header :: dataRows =>
      match parseHeader header with
      | none => .error .badHeader
      | some (_, fields) =>
        .ok (dataRows.foldl
          (decodeRow (vmapOf (parseMetaKv meta)) (parseMetaKv meta)
            (splitC ',' fields)) [])
  else .error .notCoil

/-- `decode` (`dec.py` 21-114): the record list that replaces `data`
(top-level extras of the object are carried through unchanged by the
source and not modelled). -/
def decodeData : DecInput → Except DErr (List Rec)
  | .noData => .error .malformedContainer
  | .dataNotDict => .error .malformedContainer
  | .withData m b => decodeCore (m.getD []) (b.getD [])

/-! ## Occurrence counting (for the token-safety analysis) and concrete
scenario payloads -/

/-- Number of case-insensitive whole-word occurrences of `tok` in
`text` (the number of positions at which `_word_collision`'s regex
would match). -/
def countWordOcc (tok text : Str) : Nat :=
  ((List.range (text.length + 1)).filter (fun i => matchesAt (lowerStr tok) text i)).length

/-- The spec's ranking scenario dataset
`[{"temp":"21.5","unit":"C"},{"temp":"21.5","unit":"C"},{"temp":"19.0","unit":"C"}]`. -/
def c5Recs : List Rec :=
  [[(ch "temp", ch "21.5"), (ch "unit", ch "C")],
   [(ch "temp", ch "21.5"), (ch "unit", ch "C")],
   [(ch "temp", ch "19.0"), (ch "unit", ch "C")]]

/-- A 32-character value, repeated often enough that interning it is
accepted by the fallback cost oracle. -/
def c6LongVal : Str := ch "aaaaaaaaaaaaaaaaaaaaaaaaaaaaaaaa"

/-- A dataset in which one value contains the token `V1` preceded by a
newline: `json.dumps` renders the newline as the two word characters
`\n`, so the collision scan misses the occurrence. -/
def c6Recs : List Rec :=
  [[(ch "a", c6LongVal), (ch "b", ch "\nV1")],
   [(ch "a", c6LongVal)],
   [(ch "a", c6LongVal)]]

/-- The meta text `encode` produces for `c6Recs`. -/
def c6Meta : Str := ch "META&ORDER=a,b&vmap=V1:aaaaaaaaaaaaaaaaaaaaaaaaaaaaaaaa"

/-- The body text `encode` produces for `c6Recs`. -/
def c6Body : Str := ch "BODY|sensordata[3]{a,b}|V1,\nV1|V1,|V1,"

/-- `final_vmap` (`enc.py` 210): the (token → value) table a run of the
encoder embeds in its meta string. -/
def encodeVmap (minFreq : Nat) (records : List Rec) (q mdu : Option Str) :
    List (Str × Str) :=
  ((proposeValueTokens records (payloadText records q mdu) minFreq).1.foldl
    (acceptStep records (keyOrder records) (payloadText records q mdu))
    ⟨[], [], tokenCount (innerText records (keyOrder records) [])⟩).accV

/-- The combined Meta+Body text of an encoder output, in the shape the
cost oracle measures (`meta + '|' + body`). -/
def emittedText : EncOut → Str
  | .untouched => []
  | .encoded m b _ _ => m ++ '|' :: b

/-- The passthrough meta declarations for `q` and `mdu`. -/
def extraParts (q mdu : Option Str) : List Str :=
  (match q with | none => [] | some v => [ch "q=" ++ v]) ++
  (match mdu with | none => [] | some v => [ch "mdu=" ++ v])

/-- Field values admissible for the amended round trip: free of the
structural delimiters `:`, `|`, `,` (row format detection and
splitting) and `&`, `;` (meta declaration splitting). -/
def valOKb (v : Str) : Bool :=
  v.all (fun c => !(c = ':' || c = '|' || c = ',' || c = '&' || c = ';'))

/-- Field names admissible for the amended round trip: free of `,`
(header field list), `|` (body row separator), `&` (meta declaration
separator) and newline (the header regex `.` cannot cross one). -/
def keyOKb (k : Str) : Bool :=
  k.all (fun c => !(c = ',' || c = '|' || c = '&' || c = '
'))

/-- The record a compact round trip reconstructs: every field of the
Key Order, missing ones as `''`. -/
def padRec (ko : List Str) (r : Rec) : Rec :=
  ko.map (fun k => (k, recGet r k))

/-- One body cell as the builder renders it (the `match` inside
`_build_positional_body`'s row loop). -/
def cellOf (tbl : List (Str × Str)) (r : Rec) (k : Str) : Str :=
  match tbl.lookup (recGet r k) with
  | some tok => tok
  | none => escapeVal (recGet r k)

/-! ## Theorems -/

/-! ### Lemmas: order and sorting -/

theorem strLtb_irrefl (a : Str) : strLtb a a = false := by
  induction a with
  | nil => rfl
  | cons c s ih => simp [strLtb, ih]

theorem strLtb_trichot (a b : Str) :
    strLtb a b = true ∨ strLtb b a = true ∨ a = b := by
  induction a generalizing b with
  | nil => cases b with
    | nil => right; right; rfl
    | cons d t => left; rfl
  | cons c s ih =>
    cases b with
    | nil => right; left; rfl
    | cons d t =>
      rcases lt_trichotomy c d with h | h | h
      · left; simp [strLtb, h]
      · subst h
        rcases ih t with h2 | h2 | h2
        · left; simp [strLtb, lt_irrefl, h2]
        · right; left; simp [strLtb, lt_irrefl, h2]
        · right; right; rw [h2]
      · right; left; simp [strLtb, h, not_lt_of_lt h]

theorem strLtb_trans {a b c : Str} (h1 : strLtb a b = true)
    (h2 : strLtb b c = true) : strLtb a c = true := by
  induction a generalizing b c with
  | nil =>
    cases c with
    | nil =>
      cases b with
      | nil => exact absurd h1 (by simp [strLtb])
      | cons d t => exact absurd h2 (by simp [strLtb])
    | cons d t => rfl
  | cons x s ih =>
    cases b with
    | nil => exact absurd h1 (by simp [strLtb])
    | cons y t =>
      cases c with
      | nil => exact absurd h2 (by simp [strLtb])
      | cons z u =>
        simp only [strLtb] at h1 h2 ⊢
        rcases lt_trichotomy x y with hxy | hxy | hxy
        · rcases lt_trichotomy y z with hyz | hyz | hyz
          · simp [lt_trans hxy hyz]
          · subst hyz; simp [hxy]
          · simp [hyz, not_lt_of_lt hyz] at h2
        · subst hxy
          rcases lt_trichotomy x z with hyz | hyz | hyz
          · simp [hyz]
          · subst hyz
            simp only [lt_irrefl, if_false] at h1 h2 ⊢
            exact ih h1 h2
          · simp [hyz, not_lt_of_lt hyz] at h2
        · simp [hxy, not_lt_of_lt hxy] at h1

theorem strLtb_asymm {a b : Str} (h : strLtb a b = true) :
    strLtb b a = false := by
  by_contra hc
  have hba : strLtb b a = true := by
    cases hx : strLtb b a
    · exact absurd hx hc
    · rfl
  have := strLtb_trans h hba
  rw [strLtb_irrefl] at this
  exact Bool.false_ne_true this

theorem mem_insertStr {a x : Str} {l : List Str} :
    a ∈ insertStr x l ↔ a = x ∨ a ∈ l := by
  induction l with
  | nil => simp [insertStr]
  | cons y ys ih =>
    by_cases h : strLeb x y = true
    · simp [insertStr, h]
    · simp only [insertStr, if_neg h, List.mem_cons, ih]
      tauto

theorem insertStr_sorted {x : Str} {l : List Str} (hx : x ∉ l)
    (hl : StrSorted l) : StrSorted (insertStr x l) := by
  induction l with
  | nil => simp [insertStr, StrSorted]
  | cons y ys ih =>
    have hxy : x ≠ y := by intro h; exact hx (h ▸ List.mem_cons_self y ys)
    have hys : x ∉ ys := fun h => hx (List.mem_cons_of_mem _ h)
    have hsy : StrSorted ys := (List.pairwise_cons.mp hl).2
    by_cases h : strLeb x y = true
    · have hlt : strLtb x y = true := by
        rcases strLtb_trichot x y with h1 | h1 | h1
        · exact h1
        · simp [strLeb, h1] at h
        · exact absurd h1 hxy
      simp only [insertStr, if_pos h]
      refine List.pairwise_cons.mpr ⟨?_, hl⟩
      intro b hb
      rcases List.mem_cons.mp hb with rfl | hb
      · exact hlt
      · exact strLtb_trans hlt ((List.pairwise_cons.mp hl).1 b hb)
    · have hlt : strLtb y x = true := by
        cases h1 : strLtb y x
        · simp [strLeb, h1] at h
        · rfl
      simp only [insertStr, if_neg h]
      refine List.pairwise_cons.mpr ⟨?_, ih hys hsy⟩
      intro b hb
      rcases mem_insertStr.mp hb with rfl | hb
      · exact hlt
      · exact (List.pairwise_cons.mp hl).1 b hb

theorem mem_sortStrs {a : Str} {l : List Str} :
    a ∈ sortStrs l ↔ a ∈ l := by
  induction l with
  | nil => simp [sortStrs]
  | cons x xs ih => simp [sortStrs, mem_insertStr, ih]

theorem sortStrs_sorted {l : List Str} (h : l.Nodup) :
    StrSorted (sortStrs l) := by
  induction l with
  | nil => exact List.Pairwise.nil
  | cons x xs ih =>
    have hx : x ∉ xs := (List.nodup_cons.mp h).1
    exact insertStr_sorted (fun hc => hx (mem_sortStrs.mp hc))
      (ih (List.nodup_cons.mp h).2)

/-- Two strictly sorted lists with the same members are equal: the key
determinism fact behind C7. -/
theorem sorted_ext {l1 l2 : List Str} (h1 : StrSorted l1) (h2 : StrSorted l2)
    (hm : ∀ a, a ∈ l1 ↔ a ∈ l2) : l1 = l2 := by
  induction l1 generalizing l2 with
  | nil =>
    cases l2 with
    | nil => rfl
    | cons b t => exact absurd ((hm b).mpr (List.mem_cons_self b t)) (by simp)
  | cons a t1 ih =>
    cases l2 with
    | nil => exact absurd ((hm a).mp (List.mem_cons_self a t1)) (by simp)
    | cons b t2 =>
      have hab : a = b := by
        rcases List.mem_cons.mp ((hm a).mp (List.mem_cons_self a t1)) with h | h
        · exact h
        · rcases List.mem_cons.mp ((hm b).mpr (List.mem_cons_self b t2)) with h' | h'
          · exact h'.symm
          · have hba : strLtb b a = true := (List.pairwise_cons.mp h2).1 a h
            have hab : strLtb a b = true := (List.pairwise_cons.mp h1).1 b h'
            have := strLtb_trans hab hba
            rw [strLtb_irrefl] at this
            exact absurd this Bool.false_ne_true
      subst hab
      have htail : ∀ c, c ∈ t1 ↔ c ∈ t2 := by
        intro c
        constructor
        · intro hc
          rcases List.mem_cons.mp ((hm c).mp (List.mem_cons_of_mem _ hc)) with h | h
          · subst h
            have := (List.pairwise_cons.mp h1).1 c hc
            rw [strLtb_irrefl] at this
            exact absurd this Bool.false_ne_true
          · exact h
        · intro hc
          rcases List.mem_cons.mp ((hm c).mpr (List.mem_cons_of_mem _ hc)) with h | h
          · subst h
            have := (List.pairwise_cons.mp h2).1 c hc
            rw [strLtb_irrefl] at this
            exact absurd this Bool.false_ne_true
          · exact h
      rw [ih (List.pairwise_cons.mp h1).2 (List.pairwise_cons.mp h2).2 htail]

/-! ### Lemmas: splitting and joining -/

theorem splitC_ne_nil (sep : Char) (s : Str) : splitC sep s ≠ [] :=
  List.splitOnP_ne_nil _ s

theorem splitC_of_not_mem {sep : Char} {s : Str} (h : sep ∉ s) :
    splitC sep s = [s] :=
  List.splitOnP_eq_single _ _ (fun x hx => by
    simp only [beq_iff_eq]
    exact fun hxs => h (hxs ▸ hx))

theorem splitC_append_sep {sep : Char} {p t : Str} (h : sep ∉ p) :
    splitC sep (p ++ sep :: t) = p :: splitC sep t :=
  List.splitOnP_first _ _
    (fun x hx => by simp only [beq_iff_eq]; exact fun hxs => h (hxs ▸ hx))
    sep (by simp) t

/-- Splitting is a retraction of joining for separator-free pieces. -/
theorem splitC_joinC {sep : Char} {parts : List Str} (hne : parts ≠ [])
    (hfree : ∀ p ∈ parts, sep ∉ p) :
    splitC sep (joinC sep parts) = parts :=
  List.splitOn_intercalate parts sep hfree hne

theorem splitFirst_append_sep {sep : Char} {a b : Str} (h : sep ∉ a) :
    splitFirst sep (a ++ sep :: b) = some (a, b) := by
  induction a with
  | nil => simp [splitFirst]
  | cons c rest ih =>
    have hc : c ≠ sep := fun hc => h (hc ▸ List.mem_cons_self c rest)
    have hrest : sep ∉ rest := fun hr => h (List.mem_cons_of_mem _ hr)
    simp [splitFirst, hc, ih hrest]

theorem natDigitsRev_eq_digits :
    ∀ fuel n, n ≤ fuel → natDigitsRev fuel n = Nat.digits 10 n := by
  intro fuel
  induction fuel with
  | zero =>
    intro n hn
    interval_cases n
    simp [natDigitsRev]
  | succ f ih =>
    intro n hn
    by_cases h : n = 0
    · subst h; simp [natDigitsRev]
    · have hpos : 0 < n := Nat.pos_of_ne_zero h
      rw [natDigitsRev, if_neg h, Nat.digits_def' (by norm_num : 1 < 10) hpos,
        ih (n / 10) ?_]
      have : n / 10 < n := Nat.div_lt_self hpos (by norm_num)
      omega

theorem digitChar_toNat : ∀ d < 10, (Nat.digitChar d).toNat - 48 = d := by
  decide

theorem digitVals_map_digitChar {l : List Nat} (h : ∀ d ∈ l, d < 10) :
    digitVals (l.map Nat.digitChar) = l := by
  induction l with
  | nil => rfl
  | cons d ds ih =>
    have hd : d < 10 := h d (List.mem_cons_self d ds)
    have hds := ih (fun e he => h e (List.mem_cons_of_mem _ he))
    simp [digitVals, List.map_cons] at hds ⊢
    exact ⟨digitChar_toNat d hd, hds⟩

theorem digits_lt_ten (n : Nat) : ∀ d ∈ Nat.digits 10 n, d < 10 :=
  fun _ hd => Nat.digits_lt_base (by norm_num) hd

theorem natToStr_inj : Function.Injective natToStr := by
  intro m n h
  have key : ∀ a b : Nat, natToStr a = natToStr b → a ≠ 0 → b ≠ 0 → a = b := by
    intro a b hab ha hb
    unfold natToStr at hab
    rw [if_neg ha, if_neg hb, natDigitsRev_eq_digits a a le_rfl,
      natDigitsRev_eq_digits b b le_rfl] at hab
    have := congrArg digitVals hab
    rw [digitVals_map_digitChar (fun d hd => digits_lt_ten a d (by simpa using hd)),
      digitVals_map_digitChar (fun d hd => digits_lt_ten b d (by simpa using hd))] at this
    have hdig : Nat.digits 10 a = Nat.digits 10 b :=
      List.reverse_injective this
    have := congrArg (Nat.ofDigits 10) hdig
    rwa [Nat.ofDigits_digits, Nat.ofDigits_digits] at this
  have zero_case : ∀ b : Nat, natToStr 0 = natToStr b → 0 = b := by
    intro b h0
    by_contra hb
    have hbne : b ≠ 0 := fun hc => hb (hc ▸ rfl)
    unfold natToStr at h0
    rw [if_pos rfl, if_neg hbne, natDigitsRev_eq_digits b b le_rfl] at h0
    have := congrArg digitVals h0
    rw [digitVals_map_digitChar (fun d hd => digits_lt_ten b d (by simpa using hd))] at this
    have h0d : digitVals ['0'] = [0] := rfl
    rw [h0d] at this
    have hdig : Nat.digits 10 b = [0] := by
      have h2 := congrArg List.reverse this
      simpa using h2.symm
    have := congrArg (Nat.ofDigits 10) hdig
    rw [Nat.ofDigits_digits] at this
    simp [Nat.ofDigits] at this
    exact hbne this
  by_cases hm : m = 0
  · subst hm; exact zero_case n h
  · by_cases hn : n = 0
    · subst hn; exact (zero_case m h.symm).symm
    · exact key m n h hm hn

/-- Everything `natToStr` emits is `digitChar` of a value below ten. -/
theorem natToStr_digits (n : Nat) :
    ∃ l : List Nat, (∀ d ∈ l, d < 10) ∧ l ≠ [] ∧
      natToStr n = l.map Nat.digitChar := by
  by_cases h : n = 0
  · subst h; exact ⟨[0], by simp, by simp, rfl⟩
  · refine ⟨(Nat.digits 10 n).reverse, ?_, ?_, ?_⟩
    · intro d hd; exact digits_lt_ten n d (by simpa using hd)
    · simp [Nat.digits_ne_nil_iff_ne_zero, h]
    · simp [natToStr, h, natDigitsRev_eq_digits n n le_rfl]

/-- The facts about decimal digit characters the development needs,
bundled so each is a bounded `decide`. -/
theorem digitChar_facts : ∀ d < 10,
    isSpecial (Nat.digitChar d) = false ∧
    pyIsSpace (Nat.digitChar d) = false ∧
    wordChar (Nat.digitChar d) = true ∧
    (Nat.digitChar d).toLower = Nat.digitChar d ∧
    Nat.digitChar d ≠ '&' ∧ Nat.digitChar d ≠ ';' ∧
    Nat.digitChar d ≠ '=' ∧ Nat.digitChar d ≠ '\n' ∧
    jsonEscChar (Nat.digitChar d) = [Nat.digitChar d] ∧
    (Nat.digitChar d).isDigit = true := by
  decide

theorem keyOrder_sorted (records : List Rec) : StrSorted (keyOrder records) :=
  sortStrs_sorted (records.flatMap recKeys).nodup_dedup

theorem mem_keyOrder {k : Str} {records : List Rec} :
    k ∈ keyOrder records ↔ ∃ r ∈ records, k ∈ recKeys r := by
  rw [keyOrder, mem_sortStrs, List.mem_dedup, List.mem_flatMap]

theorem keyOrder_nodup (records : List Rec) : (keyOrder records).Nodup := by
  have h := keyOrder_sorted records
  exact h.imp (fun hab => by
    intro he
    subst he
    rw [strLtb_irrefl] at hab
    exact Bool.false_ne_true hab)

/-- **C7**: the Key Order computed by `encode` is the union of all field
names appearing in any record, sorted lexicographically (strictly
ascending, hence deduplicated), and any two datasets with the same set
of field names get the same Key Order, regardless of record order and
per-record key order. -/
theorem keyOrder_spec (records : List Rec) :
    StrSorted (keyOrder records) ∧
    (keyOrder records).Nodup ∧
    (∀ k, k ∈ keyOrder records ↔ ∃ r ∈ records, k ∈ recKeys r) ∧
    (∀ records2 : List Rec,
      (∀ k, (∃ r ∈ records, k ∈ recKeys r) ↔ (∃ r ∈ records2, k ∈ recKeys r)) →
      keyOrder records = keyOrder records2) := by
  refine ⟨keyOrder_sorted records, keyOrder_nodup records,
    fun _ => mem_keyOrder, fun records2 hm => ?_⟩
  exact sorted_ext (keyOrder_sorted records) (keyOrder_sorted records2)
    (fun a => by rw [mem_keyOrder, mem_keyOrder]; exact hm a)

/-- Witness for C7: two datasets carrying the fields `a`, `b` in
different records and orders produce the identical Key Order. -/
theorem keyOrder_spec_witness :
    keyOrder [[(ch "b", ch "1")], [(ch "a", ch "2")]] =
      keyOrder [[(ch "a", ch "9"), (ch "b", ch "8")]] := by
  refine (keyOrder_spec [[(ch "b", ch "1")], [(ch "a", ch "2")]]).2.2.2
    [[(ch "a", ch "9"), (ch "b", ch "8")]] ?_
  intro k
  simp only [recKeys, ch]
  constructor
  · rintro ⟨r, hr, hk⟩
    rcases List.mem_cons.mp hr with rfl | hr
    · refine ⟨[("a".data, "9".data), ("b".data, "8".data)], by simp, ?_⟩
      simp at hk ⊢
      tauto
    · rcases List.mem_cons.mp hr with rfl | hr
      · refine ⟨[("a".data, "9".data), ("b".data, "8".data)], by simp, ?_⟩
        simp at hk ⊢
        tauto
      · simp at hr
  · rintro ⟨r, hr, hk⟩
    rcases List.mem_cons.mp hr with rfl | hr
    · simp at hk
      rcases hk with rfl | rfl
      · exact ⟨[("a".data, "2".data)], by simp, by simp⟩
      · exact ⟨[("b".data, "1".data)], by simp, by simp⟩
    · simp at hr

/-! ### Lemmas: the escape codec -/

theorem pyReplace_append (old : Char) (new : Str) (s t : Str) :
    pyReplace old new (s ++ t) = pyReplace old new s ++ pyReplace old new t := by
  induction s with
  | nil => rfl
  | cons c rest ih => simp [pyReplace, ih]

/-- The chain of four `replace` calls acts characterwise as `escUnit`. -/
theorem escapeVal_eq_flatMap (v : Str) :
    escapeVal v = v.flatMap escUnit := by
  induction v with
  | nil => rfl
  | cons c rest ih =>
    show escapeVal (c :: rest) = escUnit c ++ rest.flatMap escUnit
    rw [← ih]
    unfold escapeVal
    show pyReplace ',' _ (pyReplace '|' _ (pyReplace ':' _
        ((if c = '\\' then ['\\', '\\'] else [c]) ++ pyReplace '\\' _ rest))) = _
    rw [pyReplace_append, pyReplace_append, pyReplace_append]
    show _ ++ escapeVal rest = _ ++ escapeVal rest
    congr 1
    by_cases h1 : c = '\\'
    · subst h1; rfl
    · by_cases h2 : c = ':'
      · subst h2; rfl
      · by_cases h3 : c = '|'
        · subst h3; rfl
        · by_cases h4 : c = ','
          · subst h4; rfl
          · simp [pyReplace, h1, h2, h3, h4, escUnit, isSpecial]

theorem unescape_escUnit (c : Char) (rest : Str) :
    unescapeVal (escUnit c ++ rest.flatMap escUnit) =
      c :: unescapeVal (rest.flatMap escUnit) := by
  by_cases h : isSpecial c
  · simp only [escUnit, h, if_pos]
    show unescapeVal ('\\' :: c :: rest.flatMap escUnit) = _
    simp [unescapeVal, ESCAPE_CHAR]
  · simp only [escUnit, h, if_neg, Bool.false_eq_true, not_false_iff]
    show unescapeVal (c :: rest.flatMap escUnit) = _
    have hc : c ≠ '\\' := by
      intro hc; subst hc; simp [isSpecial] at h
    match hrest : rest.flatMap escUnit with
    | [] => simp [unescapeVal]
    | d :: ds =>
      show unescapeVal (c :: d :: ds) = c :: unescapeVal (d :: ds)
      simp [unescapeVal, ESCAPE_CHAR, hc]

theorem unescape_flatMap_escUnit (v : Str) :
    unescapeVal (v.flatMap escUnit) = v := by
  induction v with
  | nil => rfl
  | cons c rest ih =>
    rw [List.flatMap_cons, unescape_escUnit, ih]

/-- **C2**: for every string `s`, `unescape(escape(s)) = s`: the escape
codec of `enc.py` (backslash rewritten first, then `:`, `|`, `,`) and
the backslash-consuming unescape of `dec.py` are mutual inverses on
every input, including strings containing the escape character. -/
theorem escape_unescape_roundtrip (s : Str) :
    unescapeVal (escapeVal s) = s := by
  rw [escapeVal_eq_flatMap, unescape_flatMap_escUnit]

/-- **C9**: the fallback cost function returns `max(1, ceil(len/4))`:
it is always ≥ 1, and equals the ceiling `⌈len/4⌉` whenever that
ceiling is at least 1 (`(len+3)/4` in `ℕ` is exactly `⌈len/4⌉`). -/
theorem tokenCount_spec (text : Str) :
    1 ≤ tokenCount text ∧
    tokenCount text = max 1 (text.length ⌈/⌉ 4) ∧
    (1 ≤ text.length ⌈/⌉ 4 → tokenCount text = text.length ⌈/⌉ 4) := by
  have hceil : text.length ⌈/⌉ 4 = (text.length + 3) / 4 :=
    Nat.ceilDiv_eq_add_pred_div _ _
  refine ⟨le_max_left _ _, by rw [hceil]; rfl, fun h => ?_⟩
  rw [hceil] at h ⊢
  simp [tokenCount, Nat.max_eq_right h]

/-! ## The collision-search loop terminates within its fuel

`_propose_value_tokens` and the accept loop retry `tok + str(n)` for
`n = 1, 2, ...` until the candidate neither collides with the payload
text nor is already taken.  The candidates are pairwise distinct; a
colliding candidate must (lowercased) be a substring of the payload
text, of which there are at most `(len+1)^2`; and at most `used.length`
candidates are taken.  So within `tokFuel` candidates a free one
exists, and the fueled model of the loop never exhausts its fuel. -/

theorem matchesAt_take {t text : Str} {i : Nat} (h : matchesAt t text i = true) :
    (text.drop i).take t.length = t := by
  unfold matchesAt at h
  rw [Bool.and_eq_true, Bool.and_eq_true] at h
  exact eq_of_beq h.1.1

theorem wordCollision_sub {tok text : Str} (h : wordCollision tok text = true) :
    ∃ i ≤ text.length, (text.drop i).take (lowerStr tok).length = lowerStr tok := by
  unfold wordCollision at h
  split at h
  · exact absurd h Bool.false_ne_true
  · rcases List.any_eq_true.mp h with ⟨i, hi, hm⟩
    refine ⟨i, ?_, matchesAt_take hm⟩
    have := List.mem_range.mp hi
    omega

/-- All contiguous substrings of `text`, as a finite set. -/
def substrFin (text : Str) : Finset Str :=
  ((Finset.range (text.length + 1)) ×ˢ (Finset.range (text.length + 1))).image
    (fun p => (text.drop p.1).take p.2)

theorem substrFin_card (text : Str) :
    (substrFin text).card ≤ (text.length + 1) * (text.length + 1) := by
  refine le_trans (Finset.card_image_le) ?_
  rw [Finset.card_product, Finset.card_range]

theorem collision_mem_substrFin {tok text : Str}
    (h : wordCollision tok text = true) : lowerStr tok ∈ substrFin text := by
  rcases wordCollision_sub h with ⟨i, hi, htake⟩
  have hlen : (lowerStr tok).length ≤ text.length := by
    have := congrArg List.length htake
    rw [List.length_take, List.length_drop] at this
    omega
  refine Finset.mem_image.mpr ⟨(i, (lowerStr tok).length), ?_, htake⟩
  rw [Finset.mem_product, Finset.mem_range, Finset.mem_range]
  omega

/-- Recover a token from its lowercasing (for `V`-digit tokens). -/
def recov (s : Str) : Str := 'V' :: s.tail

theorem tokShape_lower {t : Str} (h : TokShape t) :
    lowerStr t = 'v' :: t.tail ∧ recov (lowerStr t) = t := by
  rcases h with ⟨l, hl, -, rfl⟩
  have h1 : ∀ x ∈ l.map Nat.digitChar, Char.toLower x = id x := by
    intro x hx
    rcases List.mem_map.mp hx with ⟨d, hd, rfl⟩
    exact (digitChar_facts d (hl d hd)).2.2.2.1
  have hmap : (l.map Nat.digitChar).map Char.toLower = l.map Nat.digitChar :=
    (List.map_congr_left h1).trans (List.map_id _)
  constructor
  · show ('V' :: l.map Nat.digitChar).map Char.toLower = _
    rw [List.map_cons, hmap]
    rfl
  · show 'V' :: (('V' :: l.map Nat.digitChar).map Char.toLower).tail = _
    rw [List.map_cons, hmap]
    rfl

theorem tokShape_append_nat {base : Str} (h : TokShape base) (n : Nat) :
    TokShape (base ++ natToStr n) := by
  rcases h with ⟨l, hl, hne, rfl⟩
  rcases natToStr_digits n with ⟨l2, hl2, hne2, heq⟩
  refine ⟨l ++ l2, ?_, by simp [hne], ?_⟩
  · intro d hd
    rcases List.mem_append.mp hd with hd | hd
    · exact hl d hd
    · exact hl2 d hd
  · rw [heq, List.map_append]
    rfl

theorem cand_inj (base : Str) : Function.Injective (fun n => base ++ natToStr n) :=
  fun m n h => natToStr_inj (List.append_cancel_left h)

theorem exists_good_in_window {bad : Str → Bool} {base : Str} {S : Finset Str}
    (hS : ∀ n, bad (base ++ natToStr n) = true → (base ++ natToStr n) ∈ S)
    (n fuel : Nat) (hf : S.card < fuel) :
    ∃ m, n ≤ m ∧ m < n + fuel ∧ bad (base ++ natToStr m) = false := by
  by_contra hc
  push_neg at hc
  have hall : ∀ m ∈ Finset.Ico n (n + fuel), (base ++ natToStr m) ∈ S := by
    intro m hm
    rw [Finset.mem_Ico] at hm
    have := hc m hm.1 hm.2
    exact hS m (by
      cases hx : bad (base ++ natToStr m)
      · exact absurd hx this
      · rfl)
  have hinj : Set.InjOn (fun m => base ++ natToStr m) (Finset.Ico n (n + fuel)) :=
    fun a _ b _ hab => cand_inj base hab
  have := Finset.card_le_card_of_injOn _ hall hinj
  rw [Nat.card_Ico] at this
  omega

theorem searchTok_not_bad {bad : Str → Bool} {base : Str} :
    ∀ fuel n, (∃ m, n ≤ m ∧ m < n + fuel ∧ bad (base ++ natToStr m) = false) →
    bad (searchTok bad base fuel n) = false := by
  intro fuel
  induction fuel with
  | zero =>
    intro n hex
    rcases hex with ⟨m, h1, h2, _⟩
    omega
  | succ f ih =>
    intro n ⟨m, h1, h2, h3⟩
    rw [searchTok]
    by_cases hb : bad (base ++ natToStr n) = true
    · simp only [hb, if_true]
      refine ih (n + 1) ⟨m, ?_, by omega, h3⟩
      rcases Nat.eq_or_lt_of_le h1 with rfl | h
      · rw [h3] at hb
        exact absurd hb Bool.false_ne_true
      · omega
    · simp only [Bool.not_eq_true] at hb
      simp [hb]

theorem pickTok_not_bad {bad : Str → Bool} {base : Str} {S : Finset Str} {fuel : Nat}
    (hS : ∀ n, bad (base ++ natToStr n) = true → (base ++ natToStr n) ∈ S)
    (hf : S.card < fuel) :
    bad (pickTok bad base fuel) = false := by
  unfold pickTok
  by_cases hb : bad base = true
  · simp only [hb, if_true]
    exact searchTok_not_bad fuel 1 (exists_good_in_window hS 1 fuel hf)
  · simp only [Bool.not_eq_true] at hb
    simp [hb]

theorem searchTok_shape {bad : Str → Bool} {base : Str} (h : TokShape base) :
    ∀ fuel n, TokShape (searchTok bad base fuel n) := by
  intro fuel
  induction fuel with
  | zero => intro n; exact tokShape_append_nat h n
  | succ f ih =>
    intro n
    rw [searchTok]
    by_cases hb : bad (base ++ natToStr n) = true
    · simp only [hb, if_true]
      exact ih (n + 1)
    · simp only [Bool.not_eq_true] at hb
      simpa [hb] using tokShape_append_nat h n

theorem pickTok_shape {bad : Str → Bool} {base : Str} {fuel : Nat}
    (h : TokShape base) : TokShape (pickTok bad base fuel) := by
  unfold pickTok
  by_cases hb : bad base = true
  · simp only [hb, if_true]
    exact searchTok_shape h fuel 1
  · simp only [Bool.not_eq_true] at hb
    simpa [hb] using h

/-! ## Dictionary and fold lemmas -/

theorem anyKey_iff {tbl : List (Str × Str)} {k : Str} :
    tbl.any (fun p => p.1 == k) = true ↔ k ∈ tbl.map Prod.fst := by
  rw [List.any_eq_true]
  constructor
  · rintro ⟨p, hp, he⟩
    exact List.mem_map.mpr ⟨p, hp, (eq_of_beq he).symm ▸ rfl⟩
  · intro hk
    rcases List.mem_map.mp hk with ⟨p, hp, he⟩
    exact ⟨p, hp, by simp [he]⟩

theorem dictUpd_append {tbl : List (Str × Str)} {k v : Str}
    (h : k ∉ tbl.map Prod.fst) : dictUpd tbl k v = tbl ++ [(k, v)] := by
  unfold dictUpd
  rw [if_neg]
  intro hc
  exact h (anyKey_iff.mp hc)

/-- Lookup in an association list hits an appended fresh pair exactly
when it missed the front part. -/
theorem lookup_append_of_not_mem {tbl : List (Str × Str)} {k : Str}
    (h : k ∉ tbl.map Prod.fst) (v : Str) :
    (tbl ++ [(k, v)]).lookup k = some v := by
  induction tbl with
  | nil => simp [List.lookup]
  | cons p rest ih =>
    have hk : (k == p.1) = false := beq_eq_false_iff_ne.mpr (fun he => h (by simp [he]))
    have hrest : k ∉ rest.map Prod.fst := fun hm => h (by simp [hm])
    simp only [List.cons_append, List.lookup, hk]
    exact ih hrest

theorem lookup_append_left {tbl tbl2 : List (Str × Str)} {k : Str} {v : Str}
    (h : tbl.lookup k = some v) :
    (tbl ++ tbl2).lookup k = some v := by
  induction tbl with
  | nil => simp [List.lookup] at h
  | cons p rest ih =>
    by_cases he : (k == p.1) = true
    · simp only [List.cons_append, List.lookup, he] at h ⊢
      exact h
    · have he' : (k == p.1) = false := by
        cases hx : (k == p.1)
        · rfl
        · exact absurd hx he
      simp only [List.cons_append, List.lookup, he'] at h ⊢
      exact ih h

theorem lookup_none_of_not_mem {tbl : List (Str × Str)} {k : Str}
    (h : k ∉ tbl.map Prod.fst) : tbl.lookup k = none := by
  induction tbl with
  | nil => rfl
  | cons p rest ih =>
    have hk : (k == p.1) = false := beq_eq_false_iff_ne.mpr (fun he => h (by simp [he]))
    have hrest : k ∉ rest.map Prod.fst := fun hm => h (by simp [hm])
    simp only [List.lookup, hk]
    exact ih hrest

/-- `f"V{i}"` has the token shape. -/
theorem tokShape_base (i : Nat) : TokShape ('V' :: natToStr i) := by
  rcases natToStr_digits i with ⟨l, hl, hne, heq⟩
  exact ⟨l, hl, hne, by rw [heq]⟩

/-- Every proposed token has the `V`-digits shape. -/
theorem propose_tokShape {ptext : Str} :
    ∀ (cands : List Str) (st : PropSt),
    (∀ p ∈ st.props, TokShape p.2) →
    ∀ p ∈ (cands.foldl (propStep ptext) st).props, TokShape p.2 := by
  intro cands
  induction cands with
  | nil => intro st h; exact h
  | cons v rest ih =>
    intro st h
    refine ih _ ?_
    intro p hp
    rcases List.mem_append.mp hp with hp | hp
    · exact h p hp
    · rcases List.mem_singleton.mp hp with rfl
      simpa using pickTok_shape (tokShape_base st.i)

/-- The proposal keys are exactly the ranked candidates, in order. -/
theorem propose_keys {ptext : Str} :
    ∀ (cands : List Str) (st : PropSt),
    (cands.foldl (propStep ptext) st).props.map Prod.fst =
      st.props.map Prod.fst ++ cands := by
  intro cands
  induction cands with
  | nil => intro st; simp
  | cons v rest ih =>
    intro st
    rw [List.foldl_cons, ih]
    simp [propStep]

/-- `Counter` keys are distinct. -/
theorem countVals_keys_nodup (vals : List Str) :
    ((countVals vals).map Prod.fst).Nodup := by
  suffices h : ∀ (acc : List (Str × Nat)), (acc.map Prod.fst).Nodup →
      ((vals.foldl (fun acc v =>
        if acc.any (fun p => p.1 == v) then
          acc.map (fun p => if p.1 == v then (p.1, p.2 + 1) else p)
        else acc ++ [(v, 1)]) acc).map Prod.fst).Nodup by
    exact h [] (by simp)
  induction vals with
  | nil => intro acc h; exact h
  | cons v rest ih =>
    intro acc h
    rw [List.foldl_cons]
    by_cases hv : acc.any (fun p => p.1 == v) = true
    · rw [if_pos hv]
      refine ih _ ?_
      have : (acc.map (fun p => if p.1 == v then (p.1, p.2 + 1) else p)).map Prod.fst =
          acc.map Prod.fst := by
        rw [List.map_map]
        refine List.map_congr_left ?_
        intro p _
        by_cases hp : p.1 = v
        · simp [hp]
        · simp [hp]
      rw [this]
      exact h
    · rw [if_neg hv]
      refine ih _ ?_
      rw [List.map_append]
      rw [List.nodup_append]
      refine ⟨h, by simp, ?_⟩
      intro a ha hb
      rcases List.mem_singleton.mp (by simpa using hb)
      have : v ∈ acc.map Prod.fst := by simpa using ha
      exact hv (by
        rcases List.mem_map.mp this with ⟨p, hp, he⟩
        exact List.any_eq_true.mpr ⟨p, hp, by simp [he]⟩)

theorem candidatesOf_nodup {cnt : List (Str × Nat)}
    (h : (cnt.map Prod.fst).Nodup) (minFreq : Nat) :
    (candidatesOf cnt minFreq).Nodup := by
  unfold candidatesOf
  have hsub : ((cnt.filter (fun p => minFreq ≤ p.2)).map Prod.fst).Sublist
      (cnt.map Prod.fst) := (List.filter_sublist _).map Prod.fst
  exact h.sublist hsub

theorem insertRanked_perm (cnt : List (Str × Nat)) (x : Str) (l : List Str) :
    (insertRanked cnt x l).Perm (x :: l) := by
  induction l with
  | nil => simp [insertRanked]
  | cons y ys ih =>
    unfold insertRanked
    by_cases h : benefit cnt y ≤ benefit cnt x
    · rw [if_pos h]
    · rw [if_neg h]
      exact (ih.cons y).trans (List.Perm.swap x y ys)

theorem rankCandidates_perm (cnt : List (Str × Nat)) (l : List Str) :
    (rankCandidates cnt l).Perm l := by
  induction l with
  | nil => simp [rankCandidates]
  | cons x xs ih =>
    exact (insertRanked_perm cnt x (rankCandidates cnt xs)).trans (ih.cons x)

/-- The ranked candidate list is duplicate-free, so the proposal keys
are distinct. -/
theorem propose_keys_nodup (records : List Rec) (ptext : Str) (minFreq : Nat) :
    ((proposeValueTokens records ptext minFreq).1.map Prod.fst).Nodup := by
  unfold proposeValueTokens
  rw [propose_keys]
  simp only [List.map_nil, List.nil_append]
  exact ((rankCandidates_perm _ _).nodup_iff).mpr
    (candidatesOf_nodup (countVals_keys_nodup _) minFreq)

/-! ## Invariants of the greedy accept loop -/

/-- The bad-token finite set for one accept step. -/
def acceptBadSet (ptext : Str) (accV : List (Str × Str)) : Finset Str :=
  (substrFin ptext).image recov ∪ (accV.map Prod.fst).toFinset

theorem acceptBadSet_card (ptext : Str) (accV : List (Str × Str)) :
    (acceptBadSet ptext accV).card < tokFuel ptext accV.length := by
  refine lt_of_le_of_lt (Finset.card_union_le _ _) ?_
  have h1 : ((substrFin ptext).image recov).card ≤ (substrFin ptext).card :=
    Finset.card_image_le
  have h2 := substrFin_card ptext
  have h3 : ((accV.map Prod.fst).toFinset).card ≤ accV.length := by
    refine le_trans (List.toFinset_card_le _) ?_
    simp
  unfold tokFuel
  omega

/-- Whatever token one accept step settles on is fresh: it has the
token shape, is distinct from every already-accepted token, and does
not collide with the payload text. -/
theorem acceptStep_tok_fresh {ptext : Str} {accV : List (Str × Str)} {base : Str}
    (hshape : TokShape base) :
    let bad := fun c => accV.any (fun p => p.1 == c) || wordCollision c ptext
    let tok := pickTok bad base (tokFuel ptext accV.length)
    TokShape tok ∧ tok ∉ accV.map Prod.fst ∧ wordCollision tok ptext = false := by
  intro bad tok
  have hbad : bad tok = false := by
    refine pickTok_not_bad ?_ (acceptBadSet_card ptext accV)
    intro n hb
    rcases Bool.or_eq_true _ _ |>.mp hb with hb | hb
    · refine Finset.mem_union_right _ ?_
      rw [List.mem_toFinset]
      exact anyKey_iff.mp hb
    · refine Finset.mem_union_left _ ?_
      have hsh := tokShape_append_nat hshape n
      have hrec := (tokShape_lower hsh).2
      rw [← hrec]
      exact Finset.mem_image_of_mem recov (collision_mem_substrFin hb)
  have hsh : TokShape tok := pickTok_shape hshape
  refine ⟨hsh, ?_, ?_⟩
  · intro hmem
    have : bad tok = true := by
      rw [Bool.or_eq_true]
      exact Or.inl (anyKey_iff.mpr hmem)
    rw [hbad] at this
    exact Bool.false_ne_true this
  · cases hcol : wordCollision tok ptext
    · rfl
    · have : bad tok = true := by
        rw [Bool.or_eq_true]
        exact Or.inr hcol
      rw [hbad] at this
      exact absurd this Bool.false_ne_true

/-- Master invariant of the accept fold: accepted tokens are distinct,
collision-free and `V`-digit shaped; `accepted_vmap` is the transpose
of `accepted`; and every accepted value is one of the processed keys. -/
theorem acceptFold_inv (records : List Rec) (ko : List Str) (ptext : Str) :
    ∀ (props : List (Str × Str)) (st : OptSt),
    (∀ p ∈ props, TokShape p.2) →
    (props.map Prod.fst).Nodup →
    (∀ p ∈ props, p.1 ∉ st.acc.map Prod.fst) →
    ((st.accV.map Prod.fst).Nodup) →
    (∀ p ∈ st.accV, TokShape p.1 ∧ wordCollision p.1 ptext = false) →
    (st.accV = st.acc.map (fun p => (p.2, p.1))) →
    (((props.foldl (acceptStep records ko ptext) st).accV.map Prod.fst).Nodup) ∧
    (∀ p ∈ (props.foldl (acceptStep records ko ptext) st).accV,
      TokShape p.1 ∧ wordCollision p.1 ptext = false) ∧
    ((props.foldl (acceptStep records ko ptext) st).accV =
      (props.foldl (acceptStep records ko ptext) st).acc.map (fun p => (p.2, p.1))) ∧
    (∀ v ∈ (props.foldl (acceptStep records ko ptext) st).acc.map Prod.fst,
      v ∈ st.acc.map Prod.fst ∨ v ∈ props.map Prod.fst) := by
  intro props
  induction props with
  | nil =>
    intro st _ _ _ h4 h5 h6
    exact ⟨h4, h5, h6, fun v hv => Or.inl hv⟩
  | cons cand rest ih =>
    intro st h1 h2 h3 h4 h5 h6
    rw [List.foldl_cons]
    have hshape : TokShape cand.2 := h1 cand (List.mem_cons_self _ _)
    obtain ⟨htoksh, htokmem, htokcol⟩ := @acceptStep_tok_fresh ptext st.accV _ hshape
    set bad := fun c => st.accV.any (fun p => p.1 == c) || wordCollision c ptext with hbad
    set tok := pickTok bad cand.2 (tokFuel ptext st.accV.length) with htok
    have hcand1 : cand.1 ∉ st.acc.map Prod.fst := h3 cand (List.mem_cons_self _ _)
    by_cases hacc :
        tokenCount (innerText records ko (dictUpd st.acc cand.1 tok)) < st.cur
    · have hstep : acceptStep records ko ptext st cand =
          ⟨dictUpd st.acc cand.1 tok, dictUpd st.accV tok cand.1,
            tokenCount (innerText records ko (dictUpd st.acc cand.1 tok))⟩ := by
        unfold acceptStep
        simp only [← hbad, ← htok, if_pos hacc]
      rw [hstep]
      rw [dictUpd_append hcand1, dictUpd_append htokmem]
      have hrestsh : ∀ p ∈ rest, TokShape p.2 :=
        fun p hp => h1 p (List.mem_cons_of_mem _ hp)
      have hrestnd : (rest.map Prod.fst).Nodup := (List.nodup_cons.mp h2).2
      have hrestdisj : ∀ p ∈ rest,
          p.1 ∉ (st.acc ++ [(cand.1, tok)]).map Prod.fst := by
        intro p hp
        rw [List.map_append, List.mem_append]
        rintro (hm | hm)
        · exact h3 p (List.mem_cons_of_mem _ hp) hm
        · have he : p.1 = cand.1 := by simpa using hm
          refine (List.nodup_cons.mp h2).1 ?_
          rw [← he]
          exact List.mem_map.mpr ⟨p, hp, rfl⟩
      have hnd' : (((st.accV ++ [(tok, cand.1)]).map Prod.fst)).Nodup := by
        rw [List.map_append, List.nodup_append]
        refine ⟨h4, by simp, ?_⟩
        intro a ha hb
        have he : a = tok := by simpa using hb
        rw [he] at ha
        exact htokmem ha
      have hpairs' : ∀ p ∈ st.accV ++ [(tok, cand.1)],
          TokShape p.1 ∧ wordCollision p.1 ptext = false := by
        intro p hp
        rcases List.mem_append.mp hp with hp | hp
        · exact h5 p hp
        · rcases List.mem_singleton.mp hp with rfl
          exact ⟨htoksh, htokcol⟩
      have hswap' : st.accV ++ [(tok, cand.1)] =
          (st.acc ++ [(cand.1, tok)]).map (fun p => (p.2, p.1)) := by
        rw [List.map_append, ← h6]
        rfl
      obtain ⟨c1, c2, c3, c4⟩ := ih ⟨st.acc ++ [(cand.1, tok)],
        st.accV ++ [(tok, cand.1)], _⟩ hrestsh hrestnd hrestdisj hnd' hpairs' hswap'
      refine ⟨c1, c2, c3, ?_⟩
      intro v hv
      rcases c4 v hv with hv2 | hv2
      · rw [List.map_append, List.mem_append] at hv2
        rcases hv2 with hv2 | hv2
        · exact Or.inl hv2
        · have he : v = cand.1 := by simpa using hv2
          exact Or.inr (by rw [he]; simp)
      · exact Or.inr (List.mem_cons_of_mem _ hv2)
    · have hstep : acceptStep records ko ptext st cand = st := by
        unfold acceptStep
        simp only [← hbad, ← htok, if_neg hacc]
      rw [hstep]
      obtain ⟨c1, c2, c3, c4⟩ := ih st
        (fun p hp => h1 p (List.mem_cons_of_mem _ hp))
        (List.nodup_cons.mp h2).2
        (fun p hp => h3 p (List.mem_cons_of_mem _ hp)) h4 h5 h6
      refine ⟨c1, c2, c3, ?_⟩
      intro v hv
      rcases c4 v hv with hv2 | hv2
      · exact Or.inl hv2
      · exact Or.inr (List.mem_cons_of_mem _ hv2)

/-- Cost invariant of the accept fold: the running cost is the cost of
the working table's meta+body, and it only ever strictly improves on
the baseline. -/
theorem acceptFold_cost (records : List Rec) (ko : List Str) (ptext : Str) :
    ∀ (props : List (Str × Str)) (st : OptSt),
    st.cur = tokenCount (innerText records ko st.acc) →
    (st.acc = [] ∧ st.cur = tokenCount (innerText records ko []) ∨
      st.cur < tokenCount (innerText records ko [])) →
    ((props.foldl (acceptStep records ko ptext) st).cur =
      tokenCount (innerText records ko
        (props.foldl (acceptStep records ko ptext) st).acc)) ∧
    ((props.foldl (acceptStep records ko ptext) st).acc = [] ∧
      (props.foldl (acceptStep records ko ptext) st).cur =
        tokenCount (innerText records ko []) ∨
     (props.foldl (acceptStep records ko ptext) st).cur <
        tokenCount (innerText records ko [])) := by
  intro props
  induction props with
  | nil =>
    intro st h1 h2
    exact ⟨h1, h2⟩
  | cons cand rest ih =>
    intro st h1 h2
    rw [List.foldl_cons]
    unfold acceptStep
    by_cases hacc :
        tokenCount (innerText records ko (dictUpd st.acc
          cand.1 (pickTok (fun c => st.accV.any (fun p => p.1 == c) ||
            wordCollision c ptext) cand.2 (tokFuel ptext st.accV.length)))) < st.cur
    · simp only [if_pos hacc]
      refine ih _ rfl ?_
      right
      rcases h2 with ⟨-, he⟩ | hlt
      · rw [← he]
        exact hacc
      · exact lt_trans hacc hlt
    · simp only [if_neg hacc]
      exact ih st h1 h2

/-! ## Length and cost arithmetic -/

theorem joinC_length (sep : Char) :
    ∀ {parts : List Str}, parts ≠ [] →
    (joinC sep parts).length = (parts.map List.length).sum + parts.length - 1 := by
  intro parts
  induction parts with
  | nil => intro h; exact absurd rfl h
  | cons p ps ih =>
    intro _
    cases ps with
    | nil => simp [joinC, List.intercalate]
    | cons q qs =>
      have hjoin : joinC sep (p :: q :: qs) = p ++ sep :: joinC sep (q :: qs) := by
        simp [joinC, List.intercalate]
      rw [hjoin]
      have := ih (by simp)
      simp only [List.length_append, List.length_cons, this,
        List.map_cons, List.sum_cons]
      have hpos : (q :: qs).length ≥ 1 := by simp
      simp only [List.map_cons, List.sum_cons, List.length_cons] at this ⊢
      omega

theorem tokenCount_mono {a b : Str} (h : a.length ≤ b.length) :
    tokenCount a ≤ tokenCount b := by
  unfold tokenCount
  have : (a.length + 3) / 4 ≤ (b.length + 3) / 4 :=
    Nat.div_le_div_right (by omega)
  omega

theorem length_lt_of_tokenCount_lt {a b : Str}
    (h : tokenCount a < tokenCount b) : a.length < b.length := by
  by_contra hc
  push_neg at hc
  exact absurd (tokenCount_mono hc) (by omega)

/-! ## Assembly of the final encoder output -/

theorem finalMeta_eq (ko : List Str) (acc accV : List (Str × Str))
    (q mdu : Option Str) (hswap : accV = acc.map (fun p => (p.2, p.1))) :
    finalMeta ko accV q mdu =
      ch "META&" ++ joinC '&' (metaParts ko acc ++ extraParts q mdu) := by
  subst hswap
  unfold finalMeta metaParts vmapEntries extraParts
  congr 1
  congr 1
  have hempty : (acc.map (fun p => (p.2, p.1))).isEmpty = acc.isEmpty := by
    cases acc <;> rfl
  have hentries : (acc.map (fun p => (p.2, p.1))).map (fun p => p.1 ++ ':' :: p.2) =
      acc.map (fun p => p.2 ++ ':' :: p.1) := by
    rw [List.map_map]
    rfl
  rw [hempty, hentries]
  by_cases h : acc.isEmpty
  · simp [h]
  · simp only [h, Bool.false_eq_true, if_false]
    rfl

theorem encode_eq (minFreq : Nat) (records : List Rec) (q mdu : Option Str) :
    encodeWith minFreq (EncPayload.payload records q mdu) =
      EncOut.encoded
        (finalMeta (keyOrder records)
          (((proposeValueTokens records (payloadText records q mdu) minFreq).1.foldl
            (acceptStep records (keyOrder records) (payloadText records q mdu))
            ⟨[], [], tokenCount (innerText records (keyOrder records) [])⟩).accV) q mdu)
        (ch "BODY|" ++ buildPositionalBody records (keyOrder records)
          (((proposeValueTokens records (payloadText records q mdu) minFreq).1.foldl
            (acceptStep records (keyOrder records) (payloadText records q mdu))
            ⟨[], [], tokenCount (innerText records (keyOrder records) [])⟩).acc))
        q mdu := rfl

theorem sum_map_len_add_one (E : List Str) :
    (E.map (fun e => e.length + 1)).sum = (E.map List.length).sum + E.length := by
  induction E with
  | nil => rfl
  | cons e es ih => simp [ih]; omega

theorem emitted_length (records : List Rec) (ko : List Str)
    (acc accV : List (Str × Str)) (q mdu : Option Str)
    (hswap : accV = acc.map (fun p => (p.2, p.1))) :
    (emittedText (EncOut.encoded (finalMeta ko accV q mdu)
      (ch "BODY|" ++ buildPositionalBody records ko acc) q mdu)).length =
    (innerText records ko acc).length +
      (((extraParts q mdu).map List.length).sum + (extraParts q mdu).length) + 5 := by
  rw [finalMeta_eq ko acc accV q mdu hswap]
  show (ch "META&" ++ joinC '&' (metaParts ko acc ++ extraParts q mdu) ++
      '|' :: (ch "BODY|" ++ buildPositionalBody records ko acc)).length = _
  unfold innerText metaFor
  have h1 : (joinC '&' (metaParts ko acc ++ extraParts q mdu)).length =
      ((metaParts ko acc ++ extraParts q mdu).map List.length).sum +
        (metaParts ko acc ++ extraParts q mdu).length - 1 :=
    joinC_length '&' (by unfold metaParts; simp)
  have h2 : (joinC '&' (metaParts ko acc)).length =
      ((metaParts ko acc).map List.length).sum + (metaParts ko acc).length - 1 :=
    joinC_length '&' (by unfold metaParts; simp)
  have hP : (metaParts ko acc).length ≥ 1 := by unfold metaParts; simp
  simp only [List.length_append, List.length_cons, List.map_append,
    List.sum_append] at h1 h2 ⊢
  rw [h1, h2]
  have : (ch "META&").length = 5 := rfl
  have hB : (ch "BODY|").length = 5 := rfl
  omega

/-- Shared preconditions feeding `acceptFold_inv` from the proposal
stage, for the default encoder pipeline. -/
theorem props_tokShape (records : List Rec) (ptext : Str) (minFreq : Nat) :
    ∀ p ∈ (proposeValueTokens records ptext minFreq).1, TokShape p.2 := by
  unfold proposeValueTokens
  exact propose_tokShape _ _ (by simp)

/-- The accept fold of the encoder, with its invariants instantiated at
the initial state. -/
theorem encode_fold_inv (records : List Rec) (q mdu : Option Str) (minFreq : Nat) :
    (((((proposeValueTokens records (payloadText records q mdu) minFreq).1.foldl
        (acceptStep records (keyOrder records) (payloadText records q mdu))
        ⟨[], [], tokenCount (innerText records (keyOrder records) [])⟩).accV).map
          Prod.fst).Nodup) ∧
    (∀ p ∈ ((proposeValueTokens records (payloadText records q mdu) minFreq).1.foldl
        (acceptStep records (keyOrder records) (payloadText records q mdu))
        ⟨[], [], tokenCount (innerText records (keyOrder records) [])⟩).accV,
      TokShape p.1 ∧ wordCollision p.1 (payloadText records q mdu) = false) ∧
    (((proposeValueTokens records (payloadText records q mdu) minFreq).1.foldl
        (acceptStep records (keyOrder records) (payloadText records q mdu))
        ⟨[], [], tokenCount (innerText records (keyOrder records) [])⟩).accV =
      ((proposeValueTokens records (payloadText records q mdu) minFreq).1.foldl
        (acceptStep records (keyOrder records) (payloadText records q mdu))
        ⟨[], [], tokenCount (innerText records (keyOrder records) [])⟩).acc.map
          (fun p => (p.2, p.1))) ∧
    (∀ v ∈ ((proposeValueTokens records (payloadText records q mdu) minFreq).1.foldl
        (acceptStep records (keyOrder records) (payloadText records q mdu))
        ⟨[], [], tokenCount (innerText records (keyOrder records) [])⟩).acc.map
          Prod.fst,
      v ∈ (proposeValueTokens records (payloadText records q mdu) minFreq).1.map
        Prod.fst) := by
  obtain ⟨c1, c2, c3, c4⟩ := acceptFold_inv records (keyOrder records)
    (payloadText records q mdu)
    (proposeValueTokens records (payloadText records q mdu) minFreq).1
    ⟨[], [], tokenCount (innerText records (keyOrder records) [])⟩
    (props_tokShape records (payloadText records q mdu) minFreq)
    (propose_keys_nodup records (payloadText records q mdu) minFreq)
    (by intro p _ hm; simp at hm)
    (by simp)
    (by intro p hp; simp at hp)
    (by simp)
  refine ⟨c1, c2, c3, ?_⟩
  intro v hv
  rcases c4 v hv with hv2 | hv2
  · simp at hv2
  · exact hv2

/-- **C4**: greedy monotonicity.  For every input payload, the cost
(per the fallback cost oracle) of the final encoded Meta+Body text is at
most the cost of the baseline encoding assembled with the empty
substitution table (including the passthrough meta declarations in
both); and each accept step either leaves the working table unchanged
or strictly lowers the currently best measured cost. -/
theorem encoded_cost_le_baseline (records : List Rec) (q mdu : Option Str) :
    tokenCount (emittedText (encode (EncPayload.payload records q mdu))) ≤
      tokenCount (emittedText (baselineOut (EncPayload.payload records q mdu))) ∧
    (∀ (ko : List Str) (ptext : Str) (st : OptSt) (cand : Str × Str),
      (acceptStep records ko ptext st cand).acc = st.acc ∨
      (acceptStep records ko ptext st cand).cur < st.cur) := by
  constructor
  · have hswap := (encode_fold_inv records q mdu 2).2.2.1
    obtain ⟨hcur, hdisj⟩ := acceptFold_cost records (keyOrder records)
      (payloadText records q mdu)
      (proposeValueTokens records (payloadText records q mdu) 2).1
      ⟨[], [], tokenCount (innerText records (keyOrder records) [])⟩
      rfl (Or.inl ⟨rfl, rfl⟩)
    have hbase : baselineOut (EncPayload.payload records q mdu) =
        EncOut.encoded (finalMeta (keyOrder records) [] q mdu)
          (ch "BODY|" ++ buildPositionalBody records (keyOrder records) []) q mdu := rfl
    have henc := encode_eq 2 records q mdu
    rw [show encode = encodeWith 2 from rfl, henc, hbase]
    have hlenE := emitted_length records (keyOrder records) _ _ q mdu hswap
    have hlenB := emitted_length records (keyOrder records) [] [] q mdu (by simp)
    rcases hdisj with ⟨hnil, -⟩ | hlt
    · rw [hnil] at hswap ⊢
      simp only [List.map_nil] at hswap
      rw [hswap]
    · refine tokenCount_mono ?_
      have hlen := length_lt_of_tokenCount_lt (hcur ▸ hlt)
      rw [hlenE, hlenB]
      omega

  · intro ko ptext st cand
    unfold acceptStep
    by_cases hacc :
        tokenCount (innerText records ko (dictUpd st.acc
          cand.1 (pickTok (fun c => st.accV.any (fun p => p.1 == c) ||
            wordCollision c ptext) cand.2 (tokFuel ptext st.accV.length)))) < st.cur
    · simp only [if_pos hacc]
      exact Or.inr hacc
    · simp only [if_neg hacc]
      exact Or.inl trivial

/-- **C6, amended**: every token the Value-Token Optimizer assigns (the
keys of the emitted vmap) is distinct from every other assigned token,
and never occurs as a case-insensitive whole word in `payload_text` —
the lowercased JSON serialization of the *original input payload*,
which is the text the collision check actually scans (`enc.py` 132).
(The original claim's "already-encoded payload text" fails: see the
counterexample, where a control character hides an occurrence from the
JSON dump.) -/
theorem token_safety_in_payload_text (records : List Rec) (q mdu : Option Str) :
    (∃ b, encode (EncPayload.payload records q mdu) =
      EncOut.encoded
        (finalMeta (keyOrder records) (encodeVmap 2 records q mdu) q mdu) b q mdu) ∧
    ((encodeVmap 2 records q mdu).map Prod.fst).Nodup ∧
    (∀ p ∈ encodeVmap 2 records q mdu,
      wordCollision p.1 (payloadText records q mdu) = false) := by
  obtain ⟨c1, c2, -, -⟩ := encode_fold_inv records q mdu 2
  exact ⟨⟨_, rfl⟩, c1, fun p hp => (c2 p hp).2⟩

/-- Error analysis of `decodeCore`: after the marker checks, the only
remaining failure is the header pattern. -/
theorem decodeCore_error_cases (meta body : Str) :
    (∃ e, decodeCore meta body = Except.error e) ↔
    ((strStarts (ch "META&") meta && strStarts (ch "BODY|") body) = false ∨
     parseHeader ((splitC '|' (body.drop 5)).headD []) = none) := by
  obtain ⟨hd, tl, hsplit⟩ : ∃ hd tl, splitC '|' (body.drop 5) = hd :: tl := by
    cases hs : splitC '|' (body.drop 5) with
    | nil => exact absurd hs (splitC_ne_nil _ _)
    | cons a b2 => exact ⟨a, b2, rfl⟩
  unfold decodeCore
  by_cases hc : (strStarts (ch "META&") meta && strStarts (ch "BODY|") body) = true
  · rw [if_pos hc]
    rw [hsplit]
    cases hph : parseHeader hd
    · simp [hph, hc, hsplit]
    · simp [hph, hc, hsplit]
  · rw [if_neg hc]
    simp only [Bool.not_eq_true] at hc
    simp [hc]

/-- **C8**: `decode` on a `data` dict raises exactly when the meta
string does not start with `META&`, or the body string does not start
with `BODY|`, or the first `|`-separated segment of the body payload
fails the header pattern `sensordata[<count>]{<fields>}`; in
particular, an already-decoded payload (whose `data` dict has no
`meta`/`body` keys, so both default to `''`) is rejected rather than
silently accepted. -/
theorem decode_error_iff :
    (∀ m b : Option Str,
      (∃ e, decodeData (DecInput.withData m b) = Except.error e) ↔
      (strStarts (ch "META&") (m.getD []) = false ∨
       strStarts (ch "BODY|") (b.getD []) = false ∨
       parseHeader ((splitC '|' ((b.getD []).drop 5)).headD []) = none)) ∧
    decodeData (DecInput.withData none none) = Except.error DErr.notCoil := by
  constructor
  · intro m b
    rw [show decodeData (DecInput.withData m b) =
      decodeCore (m.getD []) (b.getD []) from rfl]
    rw [decodeCore_error_cases]
    have hsplitand : (strStarts (ch "META&") (m.getD []) &&
        strStarts (ch "BODY|") (b.getD [])) = false ↔
        (strStarts (ch "META&") (m.getD []) = false ∨
         strStarts (ch "BODY|") (b.getD []) = false) := by
      cases strStarts (ch "META&") (m.getD []) <;>
        cases strStarts (ch "BODY|") (b.getD []) <;> simp
    rw [hsplitand, or_assoc]
  · rfl

/-! ## Character-membership lemmas for the round trip -/

theorem escapeVal_chars {v : Str} {c : Char} (h : c ∈ escapeVal v) :
    c = '\\' ∨ c ∈ v := by
  rw [escapeVal_eq_flatMap] at h
  rcases List.mem_flatMap.mp h with ⟨a, ha, hc⟩
  unfold escUnit at hc
  by_cases hsp : isSpecial a = true
  · rw [if_pos hsp] at hc
    simp only [List.mem_cons, List.mem_singleton] at hc
    rcases hc with rfl | hc
    · exact Or.inl rfl
    · rcases (by simpa using hc : c = a) with rfl
      exact Or.inr ha
  · rw [if_neg hsp] at hc
    rcases List.mem_singleton.mp hc with rfl
    exact Or.inr ha

theorem escapeVal_id {v : Str} (h : ∀ c ∈ v, isSpecial c = false) :
    escapeVal v = v := by
  rw [escapeVal_eq_flatMap]
  induction v with
  | nil => rfl
  | cons c rest ih =>
    rw [List.flatMap_cons]
    rw [show escUnit c = [c] by unfold escUnit; rw [h c (by simp)]; rfl]
    rw [List.singleton_append]
    rw [ih (fun a ha => h a (List.mem_cons_of_mem _ ha))]

theorem escapeVal_no_backslash {v : Str} (h : '\\' ∉ escapeVal v) :
    ∀ c ∈ v, isSpecial c = false := by
  intro c hc
  by_contra hsp
  have hsp' : isSpecial c = true := by
    cases hx : isSpecial c
    · exact absurd hx hsp
    · rfl
  refine h ?_
  rw [escapeVal_eq_flatMap]
  refine List.mem_flatMap.mpr ⟨c, hc, ?_⟩
  unfold escUnit
  rw [if_pos hsp']
  simp

theorem tokShape_chars {t : Str} (h : TokShape t) : ∀ c ∈ t,
    isSpecial c = false ∧ pyIsSpace c = false ∧ c ≠ '&' ∧ c ≠ ';' ∧ c ≠ '\n' := by
  rcases h with ⟨l, hl, -, rfl⟩
  intro c hc
  rcases List.mem_cons.mp hc with rfl | hc
  · refine ⟨by decide, by decide, by decide, by decide, by decide⟩
  · rcases List.mem_map.mp hc with ⟨d, hd, rfl⟩
    obtain ⟨f1, f2, -, -, f5, f6, -, f8, -, -⟩ := digitChar_facts d (hl d hd)
    exact ⟨f1, f2, f5, f6, f8⟩

theorem tokShape_ne_nil {t : Str} (h : TokShape t) : t ≠ [] := by
  rcases h with ⟨l, -, -, rfl⟩
  simp

theorem joinC_chars {sep : Char} {parts : List Str} {c : Char}
    (h : c ∈ joinC sep parts) : c = sep ∨ ∃ p ∈ parts, c ∈ p := by
  induction parts with
  | nil => simp [joinC, List.intercalate] at h
  | cons p ps ih =>
    cases ps with
    | nil =>
      simp only [joinC, List.intercalate] at h
      simp at h
      exact Or.inr ⟨p, by simp, h⟩
    | cons q qs =>
      have hjoin : joinC sep (p :: q :: qs) = p ++ sep :: joinC sep (q :: qs) := by
        simp [joinC, List.intercalate]
      rw [hjoin] at h
      rcases List.mem_append.mp h with h | h
      · exact Or.inr ⟨p, by simp, h⟩
      · rcases List.mem_cons.mp h with rfl | h
        · exact Or.inl rfl
        · rcases ih h with h | ⟨p2, hp2, hc2⟩
          · exact Or.inl h
          · exact Or.inr ⟨p2, List.mem_cons_of_mem _ hp2, hc2⟩

theorem joinC_cons_cons (sep : Char) (p q : Str) (qs : List Str) :
    joinC sep (p :: q :: qs) = p ++ sep :: joinC sep (q :: qs) := by
  simp [joinC, List.intercalate]

theorem joinC_singleton (sep : Char) (p : Str) : joinC sep [p] = p := by
  simp [joinC, List.intercalate]

theorem joinC_sep_mem {sep : Char} {parts : List Str}
    (h : 2 ≤ parts.length) : sep ∈ joinC sep parts := by
  match parts, h with
  | p :: q :: qs, _ =>
    rw [joinC_cons_cons]
    simp

theorem lookup_eq_of_mem_of_nodup {l : List (Str × Str)} {k v : Str}
    (hnd : (l.map Prod.fst).Nodup) (hm : (k, v) ∈ l) : l.lookup k = some v := by
  induction l with
  | nil => simp at hm
  | cons p rest ih =>
    rcases List.mem_cons.mp hm with rfl | hm
    · simp [List.lookup]
    · rw [List.map_cons] at hnd
      have hk : (k == p.1) = false := by
        refine beq_eq_false_iff_ne.mpr ?_
        intro he
        refine (List.nodup_cons.mp hnd).1 ?_
        rw [← he]
        exact List.mem_map.mpr ⟨(k, v), hm, rfl⟩
      simp only [List.lookup, hk]
      exact ih (List.nodup_cons.mp hnd).2 hm

theorem mem_of_lookup {l : List (Str × Str)} {k v : Str}
    (h : l.lookup k = some v) : (k, v) ∈ l := by
  induction l with
  | nil => simp [List.lookup] at h
  | cons p rest ih =>
    by_cases he : (k == p.1) = true
    · simp only [List.lookup, he] at h
      have := eq_of_beq he
      rcases p with ⟨pk, pv⟩
      simp at this h
      simp [this, h]
    · have he' : (k == p.1) = false := by
        cases hx : (k == p.1)
        · rfl
        · exact absurd hx he
      simp only [List.lookup, he'] at h
      exact List.mem_cons_of_mem _ (ih h)

theorem countVals_keys_sub (vals : List Str) :
    ∀ k ∈ (countVals vals).map Prod.fst, k ∈ vals := by
  suffices h : ∀ (acc : List (Str × Nat)),
      ∀ k ∈ ((vals.foldl (fun acc v =>
        if acc.any (fun p => p.1 == v) then
          acc.map (fun p => if p.1 == v then (p.1, p.2 + 1) else p)
        else acc ++ [(v, 1)]) acc).map Prod.fst),
      k ∈ acc.map Prod.fst ∨ k ∈ vals by
    intro k hk
    rcases h [] k hk with h2 | h2
    · simp at h2
    · exact h2
  induction vals with
  | nil =>
    intro acc k hk
    exact Or.inl hk
  | cons v rest ih =>
    intro acc k hk
    rw [List.foldl_cons] at hk
    by_cases hv : acc.any (fun p => p.1 == v) = true
    · rw [if_pos hv] at hk
      rcases ih _ k hk with h2 | h2
      · left
        have : (acc.map (fun p => if p.1 == v then (p.1, p.2 + 1) else p)).map Prod.fst =
            acc.map Prod.fst := by
          rw [List.map_map]
          refine List.map_congr_left ?_
          intro p _
          by_cases hp : p.1 = v
          · simp [hp]
          · simp [hp]
        rwa [this] at h2
      · exact Or.inr (List.mem_cons_of_mem _ h2)
    · rw [if_neg hv] at hk
      rcases ih _ k hk with h2 | h2
      · rw [List.map_append, List.mem_append] at h2
        rcases h2 with h2 | h2
        · exact Or.inl h2
        · have : k = v := by simpa using h2
          exact Or.inr (this ▸ List.mem_cons_self v rest)
      · exact Or.inr (List.mem_cons_of_mem _ h2)

/-- Every key the accept fold of `encode` puts in the working table is
one of the record values. -/
theorem encode_acc_values (records : List Rec) (q mdu : Option Str) (minFreq : Nat) :
    ∀ v ∈ (((proposeValueTokens records (payloadText records q mdu) minFreq).1.foldl
        (acceptStep records (keyOrder records) (payloadText records q mdu))
        ⟨[], [], tokenCount (innerText records (keyOrder records) [])⟩).acc).map
          Prod.fst,
    v ∈ allValues records := by
  intro v hv
  have h1 := (encode_fold_inv records q mdu minFreq).2.2.2 v hv
  have h2 : (proposeValueTokens records (payloadText records q mdu) minFreq).1.map
      Prod.fst = rankCandidates (countVals (allValues records))
        (candidatesOf (countVals (allValues records)) minFreq) := by
    unfold proposeValueTokens
    rw [propose_keys]
    simp
  rw [h2] at h1
  have h3 := ((rankCandidates_perm _ _).mem_iff).mp h1
  unfold candidatesOf at h3
  rcases List.mem_map.mp h3 with ⟨p, hp, rfl⟩
  exact countVals_keys_sub (allValues records) p.1
    (List.mem_map.mpr ⟨p, List.mem_of_mem_filter hp, rfl⟩)

/-! ## Record values are quoted in the payload text

If a record value *is* literally some `V`-digits token, the collision
scan sees it: `json.dumps` quotes every value, quotes are non-word
characters, and an ASCII-alphanumeric value passes through the JSON
escaper and the lowercasing untouched (up to `V` → `v`). -/

theorem flatMap_id_of {f : Char → Str} :
    ∀ {s : Str}, (∀ c ∈ s, f c = [c]) → s.flatMap f = s := by
  intro s
  induction s with
  | nil => intro _; rfl
  | cons c rest ih =>
    intro h
    rw [List.flatMap_cons, h c (by simp), List.singleton_append,
      ih (fun a ha => h a (List.mem_cons_of_mem _ ha))]

theorem intercalate_cons_cons (s y z : Str) (zs : List Str) :
    List.intercalate s (y :: z :: zs) = y ++ s ++ List.intercalate s (z :: zs) := by
  simp [List.intercalate]

theorem intercalate_split {x : Str} {l : List Str} (s : Str) (h : x ∈ l) :
    ∃ A B, List.intercalate s l = A ++ x ++ B := by
  induction l with
  | nil => simp at h
  | cons y ys ih =>
    rcases List.mem_cons.mp h with rfl | h
    · cases ys with
      | nil => exact ⟨[], [], by simp [List.intercalate]⟩
      | cons z zs =>
        refine ⟨[], s ++ List.intercalate s (z :: zs), ?_⟩
        rw [intercalate_cons_cons]
        simp
    · rcases ih h with ⟨A, B, hAB⟩
      cases ys with
      | nil => simp at h
      | cons z zs =>
        refine ⟨y ++ s ++ A, B, ?_⟩
        rw [intercalate_cons_cons, hAB]
        simp

theorem getD_at_append {α : Type} : ∀ (A : List α) (c : α) (B : List α) (d : α),
    (A ++ c :: B).getD A.length d = c := by
  intro A
  induction A with
  | nil => intro c B d; rfl
  | cons a A ih => intro c B d; simpa using ih c B d

/-- A quoted whole-word occurrence makes `_word_collision` fire. -/
theorem wordCollision_of_quoted {t ptext : Str} (hsh : TokShape t) (A B : Str)
    (hpt : ptext = A ++ '"' :: (lowerStr t ++ '"' :: B)) :
    wordCollision t ptext = true := by
  have hne : t ≠ [] := tokShape_ne_nil hsh
  unfold wordCollision
  rw [if_neg hne]
  refine List.any_eq_true.mpr ⟨A.length + 1, ?_, ?_⟩
  · refine List.mem_range.mpr ?_
    rw [hpt]
    simp only [List.length_append, List.length_cons]
    omega
  · unfold matchesAt
    have hdrop : (ptext.drop (A.length + 1)).take (lowerStr t).length = lowerStr t := by
      rw [hpt, show A ++ '"' :: (lowerStr t ++ '"' :: B) =
        (A ++ ['"']) ++ (lowerStr t ++ '"' :: B) by simp]
      rw [show A.length + 1 = (A ++ ['"']).length by simp]
      rw [List.drop_left, List.take_left]
    have hleft : ptext.getD (A.length + 1 - 1) ' ' = '"' := by
      simp only [Nat.add_sub_cancel]
      rw [hpt]
      exact getD_at_append A '"' _ ' '
    have hright : ptext.getD (A.length + 1 + (lowerStr t).length) ' ' = '"' := by
      rw [hpt, show A ++ '"' :: (lowerStr t ++ '"' :: B) =
        (A ++ '"' :: lowerStr t) ++ '"' :: B by simp]
      rw [show A.length + 1 + (lowerStr t).length =
        (A ++ '"' :: lowerStr t).length by simp; omega]
      exact getD_at_append _ '"' _ ' '
    rw [hdrop, hleft, hright]
    simp [wordChar]

/-- A record value that literally equals a `V`-digits token collides
with the payload text. -/
theorem value_collision (records : List Rec) {r : Rec} {v : Str}
    (hr : r ∈ records) (hv : v ∈ r.map Prod.snd) (hsh : TokShape v) :
    wordCollision v (payloadText records none none) = true := by
  have hesc : v.flatMap jsonEscChar = v := by
    refine flatMap_id_of ?_
    intro c hc
    rcases hsh with ⟨l, hl, -, hveq⟩
    rw [hveq] at hc
    rcases List.mem_cons.mp hc with rfl | hc
    · decide
    · rcases List.mem_map.mp hc with ⟨d, hd, rfl⟩
      exact (digitChar_facts d (hl d hd)).2.2.2.2.2.2.2.2.1
  rcases List.mem_map.mp hv with ⟨p, hp, hsnd⟩
  -- jsonStr v sits inside the pair string
  obtain ⟨A1, B1, h1⟩ : ∃ A1 B1,
      dumpRec r = A1 ++ jsonStr v ++ B1 := by
    obtain ⟨A0, B0, h0⟩ := intercalate_split (ch ", ")
      (List.mem_map.mpr ⟨p, hp, rfl⟩)
    refine ⟨'{' :: A0 ++ (jsonStr p.1 ++ ch ": "), B0 ++ ['}'], ?_⟩
    unfold dumpRec
    rw [h0, hsnd]
    simp [List.append_assoc]
  obtain ⟨A2, B2, h2⟩ : ∃ A2 B2,
      dumpPayload records none none = A2 ++ jsonStr v ++ B2 := by
    obtain ⟨A0, B0, h0⟩ := intercalate_split (ch ", ")
      (List.mem_map.mpr ⟨r, hr, rfl⟩)
    refine ⟨ch "\x7b\"data\": \x7b\"sensordata\": [" ++ A0 ++ A1,
      B1 ++ B0 ++ ch "]\x7d" ++ ['}'], ?_⟩
    unfold dumpPayload
    rw [h0, h1]
    simp [List.append_assoc]
  have hlower : payloadText records none none =
      lowerStr A2 ++ '"' :: (lowerStr v ++ '"' :: lowerStr B2) := by
    unfold payloadText
    rw [h2]
    unfold jsonStr
    rw [hesc]
    unfold lowerStr
    simp [List.append_assoc]
  exact wordCollision_of_quoted hsh (lowerStr A2) (lowerStr B2) hlower

/-! ## Decoding the encoder's own meta string -/

theorem strStarts_append (p t : Str) : strStarts p (p ++ t) = true := by
  unfold strStarts
  rw [List.take_left]
  exact beq_self_eq_true p

theorem drop_marker (marker x : Str) (h : marker.length = 5) :
    (marker ++ x).drop 5 = x := by
  rw [← h, List.drop_left]

theorem not_special_ne {c : Char} (h : isSpecial c = false) :
    c ≠ '\\' ∧ c ≠ ':' ∧ c ≠ '|' ∧ c ≠ ',' := by
  unfold isSpecial at h
  simp only [Bool.or_eq_false_iff, decide_eq_false_iff_not] at h
  exact ⟨h.1.1.1, h.1.1.2, h.1.2, h.2⟩

theorem valOK_chars {v : Str} (h : valOKb v = true) :
    ∀ c ∈ v, c ≠ ':' ∧ c ≠ '|' ∧ c ≠ ',' ∧ c ≠ '&' ∧ c ≠ ';' := by
  intro c hc
  have := List.all_eq_true.mp h c hc
  simp only [Bool.not_eq_true', Bool.or_eq_false_iff,
    decide_eq_false_iff_not] at this
  exact ⟨this.1.1.1.1, this.1.1.1.2, this.1.1.2, this.1.2, this.2⟩

theorem keyOK_chars {k : Str} (h : keyOKb k = true) :
    ∀ c ∈ k, c ≠ ',' ∧ c ≠ '|' ∧ c ≠ '&' ∧ c ≠ '\n' := by
  intro c hc
  have := List.all_eq_true.mp h c hc
  simp only [Bool.not_eq_true', Bool.or_eq_false_iff,
    decide_eq_false_iff_not] at this
  exact ⟨this.1.1.1, this.1.1.2, this.1.2, this.2⟩

theorem natToStr_chars (n : Nat) :
    ∀ c ∈ natToStr n, ∃ d, d < 10 ∧ c = Nat.digitChar d := by
  rcases natToStr_digits n with ⟨l, hl, -, heq⟩
  rw [heq]
  intro c hc
  rcases List.mem_map.mp hc with ⟨d, hd, rfl⟩
  exact ⟨d, hl d hd, rfl⟩

/-- The fold of `parseMetaKv` over rendered `k=v` parts with fresh keys
accumulates them in order. -/
theorem metaKv_fold_render :
    ∀ (l : List (Str × Str)) (acc0 : List (Str × Str)),
    (∀ p ∈ l, '=' ∉ p.1) →
    ((acc0 ++ l).map Prod.fst).Nodup →
    ((l.map (fun p => p.1 ++ '=' :: p.2)).foldl (fun (acc : List (Str × Str)) p =>
      match splitFirst '=' p with
      | some (k, v) => dictUpd acc k v
      | none => acc) acc0) = acc0 ++ l := by
  intro l
  induction l with
  | nil => intro acc0 _ _; simp
  | cons p rest ih =>
    intro acc0 h1 h2
    rw [List.map_cons, List.foldl_cons]
    simp only [splitFirst_append_sep (h1 p (List.mem_cons_self _ _))]
    have hfresh : p.1 ∉ acc0.map Prod.fst := by
      intro hm
      rw [List.map_append] at h2
      exact List.disjoint_of_nodup_append h2 hm (by simp)
    rw [dictUpd_append hfresh]
    rw [ih (acc0 ++ [p]) (fun q hq => h1 q (List.mem_cons_of_mem _ hq))
      (by rw [List.append_assoc]; simpa using h2)]
    simp

theorem parsePairs_render (l : List (Str × Str)) (hne : l ≠ [])
    (hk : ∀ p ∈ l, ':' ∉ p.1 ∧ ';' ∉ p.1) (hv : ∀ p ∈ l, ';' ∉ p.2)
    (hnd : (l.map Prod.fst).Nodup) :
    parsePairs (joinC ';' (l.map (fun p => p.1 ++ ':' :: p.2))) = l := by
  unfold parsePairs
  rw [splitC_joinC (by simpa using hne) ?hfree]
  case hfree =>
    intro e he
    rcases List.mem_map.mp he with ⟨p, hp, rfl⟩
    intro hc
    rcases List.mem_append.mp hc with hc | hc
    · exact (hk p hp).2 hc
    · rcases List.mem_cons.mp hc with he2 | hc
      · exact absurd he2.symm (by decide)
      · exact hv p hp hc
  -- now a fold like metaKv_fold_render but with ':'
  suffices hgen : ∀ (l2 : List (Str × Str)) (acc0 : List (Str × Str)),
      (∀ p ∈ l2, ':' ∉ p.1) →
      ((acc0 ++ l2).map Prod.fst).Nodup →
      ((l2.map (fun p => p.1 ++ ':' :: p.2)).foldl (fun (acc : List (Str × Str)) e =>
        match splitFirst ':' e with
        | some (k, v) => dictUpd acc k v
        | none => acc) acc0) = acc0 ++ l2 by
    simpa using hgen l [] (fun p hp => (hk p hp).1) (by simpa using hnd)
  intro l2
  induction l2 with
  | nil => intro acc0 _ _; simp
  | cons p rest ih =>
    intro acc0 h1 h2
    rw [List.map_cons, List.foldl_cons]
    simp only [splitFirst_append_sep (h1 p (List.mem_cons_self _ _))]
    have hfresh : p.1 ∉ acc0.map Prod.fst := by
      intro hm
      rw [List.map_append] at h2
      exact List.disjoint_of_nodup_append h2 hm (by simp)
    rw [dictUpd_append hfresh]
    rw [ih (acc0 ++ [p]) (fun q hq => h1 q (List.mem_cons_of_mem _ hq))
      (by rw [List.append_assoc]; simpa using h2)]
    simp

/-! ## The encoder's header parses back -/

theorem takeWhile_append_stop {p : Char → Bool} {a : Str} {b : Char} {t : Str}
    (ha : ∀ c ∈ a, p c = true) (hb : p b = false) :
    (a ++ b :: t).takeWhile p = a := by
  induction a with
  | nil => simp [List.takeWhile, hb]
  | cons c rest ih =>
    have hc : p c = true := ha c (by simp)
    simp only [List.cons_append, List.takeWhile, hc, List.append_eq]
    rw [ih (fun d hd => ha d (List.mem_cons_of_mem _ hd))]

theorem takeWhile_all {p : Char → Bool} {l : Str}
    (h : ∀ c ∈ l, p c = true) : l.takeWhile p = l := by
  induction l with
  | nil => rfl
  | cons c rest ih =>
    have hc : p c = true := h c (by simp)
    simp only [List.takeWhile, hc]
    rw [ih (fun d hd => h d (List.mem_cons_of_mem _ hd))]

theorem parseHeader_build (n : Nat) (ks : Str) (hne : ks ≠ [])
    (hnl : '\n' ∉ ks) :
    parseHeader (ch "sensordata[" ++ natToStr n ++ ch "]\x7b" ++ ks ++ ['}']) =
      some (natToStr n, ks) := by
  simp only [parseHeader]
  have hstart : strStarts (ch "sensordata[")
      (ch "sensordata[" ++ natToStr n ++ ch "]\x7b" ++ ks ++ ['}']) = true := by
    rw [show ch "sensordata[" ++ natToStr n ++ ch "]\x7b" ++ ks ++ ['}'] =
      ch "sensordata[" ++ (natToStr n ++ ch "]\x7b" ++ ks ++ ['}']) by simp]
    exact strStarts_append _ _
  rw [if_pos hstart]
  have hdrop11 : (ch "sensordata[" ++ natToStr n ++ ch "]\x7b" ++ ks ++ ['}']).drop 11 =
      natToStr n ++ ch "]\x7b" ++ ks ++ ['}'] := by
    rw [show ch "sensordata[" ++ natToStr n ++ ch "]\x7b" ++ ks ++ ['}'] =
      ch "sensordata[" ++ (natToStr n ++ ch "]\x7b" ++ ks ++ ['}']) by simp]
    rw [show (11 : Nat) = (ch "sensordata[").length from rfl, List.drop_left]
  rw [hdrop11]
  have hdigits : ∀ c ∈ natToStr n, c.isDigit = true := by
    intro c hc
    rcases natToStr_chars n c hc with ⟨d, hd, rfl⟩
    exact (digitChar_facts d hd).2.2.2.2.2.2.2.2.2
  have htw : (natToStr n ++ ch "]\x7b" ++ ks ++ ['}']).takeWhile Char.isDigit =
      natToStr n := by
    rw [show natToStr n ++ ch "]\x7b" ++ ks ++ ['}'] =
      natToStr n ++ ']' :: (ch "\x7b" ++ ks ++ ['}']) by simp [ch]]
    exact takeWhile_append_stop hdigits (by decide)
  rw [htw]
  have hds_ne : (natToStr n).isEmpty = false := by
    rcases natToStr_digits n with ⟨l, -, hlne, heq⟩
    rw [heq]
    cases l with
    | nil => exact absurd rfl hlne
    | cons d ds => rfl
  rw [hds_ne]
  simp only [Bool.false_eq_true, if_false]
  have hdroplen : (natToStr n ++ ch "]\x7b" ++ ks ++ ['}']).drop (natToStr n).length =
      ch "]\x7b" ++ (ks ++ ['}']) := by
    rw [show natToStr n ++ ch "]\x7b" ++ ks ++ ['}'] =
      natToStr n ++ (ch "]\x7b" ++ (ks ++ ['}'])) by simp]
    rw [List.drop_left]
  rw [hdroplen, if_pos (strStarts_append _ _)]
  have hdrop2 : (ch "]\x7b" ++ (ks ++ ['}'])).drop 2 = ks ++ ['}'] := by
    rw [show (2 : Nat) = (ch "]\x7b").length from rfl, List.drop_left]
  rw [hdrop2]
  have hline : (ks ++ ['}']).takeWhile (fun c => c ≠ '\n') = ks ++ ['}'] := by
    refine takeWhile_all ?_
    intro c hc
    rcases List.mem_append.mp hc with hc | hc
    · simp only [decide_eq_true_eq]
      exact fun he => hnl (he ▸ hc)
    · rcases List.mem_singleton.mp hc with rfl
      decide
  rw [hline]
  have hrev : (ks ++ ['}']).reverse.takeWhile (fun c => c ≠ '}') = [] := by
    rw [List.reverse_append]
    simp [List.takeWhile]
  rw [hrev]
  have hlen0 : (0 : Nat) ≠ (ks ++ ['}']).length := by
    simp
  rw [if_neg (by simpa using hlen0)]
  have hj : (ks ++ ['}']).length - List.length ([] : Str) - 1 = ks.length := by
    simp
  rw [hj]
  have hksne : ks.length ≠ 0 := by
    cases ks with
    | nil => exact absurd rfl hne
    | cons c rest => simp
  rw [if_neg hksne, List.take_left]

/-! ## Cells and rows round-trip -/

theorem buildRow_eq (ko : List Str) (tbl : List (Str × Str)) (r : Rec) :
    buildRow ko tbl r = joinC ',' (ko.map (cellOf tbl r)) := rfl

theorem recGet_valOK {r : Rec} (h : ∀ p ∈ r, valOKb p.2 = true) (k : Str) :
    valOKb (recGet r k) = true := by
  unfold recGet
  cases hl : r.lookup k with
  | none => rfl
  | some v => exact h (k, v) (mem_of_lookup hl)

theorem cellOf_chars {tbl : List (Str × Str)} {r : Rec} {k : Str}
    (hvals : ∀ p ∈ r, valOKb p.2 = true)
    (htbl : ∀ p ∈ tbl, TokShape p.2) :
    ∀ c ∈ cellOf tbl r k, c ≠ ':' ∧ c ≠ '|' ∧ c ≠ ',' := by
  intro c hc
  unfold cellOf at hc
  cases hl : tbl.lookup (recGet r k) with
  | some tok =>
    rw [hl] at hc
    have hsh : TokShape tok := htbl (recGet r k, tok) (mem_of_lookup hl)
    have := not_special_ne (tokShape_chars hsh c hc).1
    exact ⟨this.2.1, this.2.2.1, this.2.2.2⟩
  | none =>
    rw [hl] at hc
    rcases escapeVal_chars hc with rfl | hc
    · exact ⟨by decide, by decide, by decide⟩
    · have := valOK_chars (recGet_valOK hvals k) c hc
      exact ⟨this.1, this.2.1, this.2.2.1⟩

/-- Resolution of one decoded cell: a substituted token maps back
through the vmap; an escaped value misses the vmap and unescapes. -/
theorem cellOf_decode (records : List Rec) {r : Rec} (hr : r ∈ records)
    {acc accV : List (Str × Str)}
    (hswap : accV = acc.map (fun p => (p.2, p.1)))
    (hnd : (accV.map Prod.fst).Nodup)
    (hpairs : ∀ p ∈ accV, TokShape p.1 ∧
      wordCollision p.1 (payloadText records none none) = false)
    (k : Str) :
    (match accV.lookup (cellOf acc r k) with
     | some w => w
     | none => unescapeVal (cellOf acc r k)) = recGet r k := by
  unfold cellOf
  cases hl : acc.lookup (recGet r k) with
  | some tok =>
    have hmem : (recGet r k, tok) ∈ acc := mem_of_lookup hl
    have hmemV : (tok, recGet r k) ∈ accV := by
      rw [hswap]
      exact List.mem_map.mpr ⟨(recGet r k, tok), hmem, rfl⟩
    rw [lookup_eq_of_mem_of_nodup hnd hmemV]
  | none =>
    have hnone : accV.lookup (escapeVal (recGet r k)) = none := by
      cases hl2 : accV.lookup (escapeVal (recGet r k)) with
      | none => rfl
      | some w =>
        exfalso
        have hmemV : (escapeVal (recGet r k), w) ∈ accV := mem_of_lookup hl2
        obtain ⟨hsh, hcol⟩ := hpairs _ hmemV
        have hnb : '\\' ∉ escapeVal (recGet r k) := by
          intro hb
          exact (not_special_ne (tokShape_chars hsh _ hb).1).1 rfl
        have hid : escapeVal (recGet r k) = recGet r k :=
          escapeVal_id (escapeVal_no_backslash hnb)
        rw [hid] at hsh hcol
        unfold recGet at hsh hcol
        cases hlk : r.lookup k with
        | none =>
          rw [hlk] at hsh
          exact tokShape_ne_nil hsh rfl
        | some v =>
          rw [hlk] at hsh hcol
          have hvmem : v ∈ r.map Prod.snd :=
            List.mem_map.mpr ⟨(k, v), mem_of_lookup hlk, rfl⟩
          rw [value_collision records hr hvmem hsh] at hcol
          simp at hcol
    rw [hnone, escape_unescape_roundtrip]

/-- The positional fold of the compact decoder rebuilds the padded
record from the cells. -/
theorem enum_fold_cells (res cf : Str → Str) (cells : List Str) :
    ∀ (ks : List Str) (pre : List Str), cells = pre ++ ks.map cf →
    ∀ (rec0 : Rec), ks.Nodup → (∀ k ∈ ks, k ∉ rec0.map Prod.fst) →
    ((ks.enumFrom pre.length).foldl (fun (r : Rec) p =>
        dictUpd r p.2 (res (cells.getD p.1 []))) rec0)
      = rec0 ++ ks.map (fun k => (k, res (cf k))) := by
  intro ks
  induction ks with
  | nil => intro pre _ rec0 _ _; simp
  | cons k ks' ih =>
    intro pre hcells rec0 hnd hfresh
    rw [List.enumFrom_cons, List.foldl_cons]
    have hgetD : cells.getD pre.length [] = cf k := by
      rw [hcells, List.map_cons]
      exact getD_at_append pre (cf k) _ []
    rw [hgetD, dictUpd_append (hfresh k (List.mem_cons_self _ _))]
    have hcells' : cells = (pre ++ [cf k]) ++ ks'.map cf := by
      rw [hcells, List.map_cons]
      simp
    have hlen' : pre.length + 1 = (pre ++ [cf k]).length := by simp
    rw [hlen', ih (pre ++ [cf k]) hcells' (rec0 ++ [(k, res (cf k))])
      (List.nodup_cons.mp hnd).2 ?hfr]
    case hfr =>
      intro k2 hk2
      rw [List.map_append, List.mem_append]
      rintro (hm | hm)
      · exact hfresh k2 (List.mem_cons_of_mem _ hk2) hm
      · have : k2 = k := by simpa using hm
        exact (List.nodup_cons.mp hnd).1 (this ▸ hk2)
    simp

/-- One encoder row decodes to the padded record. -/
theorem decodeRow_build (vmap metaKv : List (Str × Str)) (acc : List (Str × Str))
    (ko : List Str) (r : Rec) (recs : List Rec)
    (hnb : isBlankStr (buildRow ko acc r) = false)
    (hnocolon : ':' ∉ buildRow ko acc r)
    (hcellfree : ∀ k ∈ ko, ',' ∉ cellOf acc r k)
    (hko_ne : ko ≠ [])
    (hnd : ko.Nodup)
    (hres : ∀ k ∈ ko, (match vmap.lookup (cellOf acc r k) with
      | some w => w
      | none => unescapeVal (cellOf acc r k)) = recGet r k) :
    decodeRow vmap metaKv ko recs (buildRow ko acc r) = recs ++ [padRec ko r] := by
  unfold decodeRow
  rw [if_neg (by rw [hnb]; exact Bool.false_ne_true)]
  rw [if_neg hnocolon]
  have hsplit : splitC ',' (buildRow ko acc r) = ko.map (cellOf acc r) := by
    rw [buildRow_eq]
    refine splitC_joinC (by simpa using hko_ne) ?_
    intro p hp
    rcases List.mem_map.mp hp with ⟨k, hk, rfl⟩
    exact hcellfree k hk
  rw [hsplit]
  have hfold := enum_fold_cells
    (fun vraw => match vmap.lookup vraw with
      | some w => w
      | none => unescapeVal vraw)
    (cellOf acc r) (ko.map (cellOf acc r)) ko [] (by simp) [] hnd (by simp)
  show recs ++ [List.foldl (fun (r2 : Rec) (p : Nat × Str) =>
      dictUpd r2 p.2 (match List.lookup ((ko.map (cellOf acc r)).getD p.1 []) vmap with
        | some v => v
        | none => unescapeVal ((ko.map (cellOf acc r)).getD p.1 []))) []
      (List.enumFrom (List.length ([] : List Str)) ko)] = recs ++ [padRec ko r]
  congr 1
  congr 1
  refine hfold.trans ?_
  rw [List.nil_append]
  unfold padRec
  refine List.map_congr_left ?_
  intro k hk
  exact congrArg (fun x => (k, x)) (hres k hk)

/-- Folding the decoder over the built rows accumulates the padded
records in order. -/
theorem decode_rows_fold (vmap metaKv : List (Str × Str)) (keyList : List Str)
    (rowOf : Rec → Str) (g : Rec → Rec) :
    ∀ (rs : List Rec),
    (∀ r ∈ rs, ∀ recs, decodeRow vmap metaKv keyList recs (rowOf r) = recs ++ [g r]) →
    ∀ recs0, ((rs.map rowOf).foldl (decodeRow vmap metaKv keyList) recs0) =
      recs0 ++ rs.map g := by
  intro rs
  induction rs with
  | nil => intro _ recs0; simp
  | cons r rest ih =>
    intro h recs0
    rw [List.map_cons, List.foldl_cons, h r (List.mem_cons_self _ _) recs0,
      ih (fun r2 h2 => h r2 (List.mem_cons_of_mem _ h2)) (recs0 ++ [g r])]
    simp

/-! ## Meta of the encoder parses back -/

theorem joinC_cons_ne_nil {sep : Char} {q : Str} {rest : List Str}
    (hq : q ≠ []) : joinC sep (q :: rest) ≠ [] := by
  cases rest with
  | nil => rw [joinC_singleton]; exact hq
  | cons z zs =>
    rw [joinC_cons_cons]
    cases q with
    | nil => simp
    | cons c cs => simp

theorem isEmpty_false_of_ne_nil {l : Str} (h : l ≠ []) : l.isEmpty = false := by
  cases l with
  | nil => exact absurd rfl h
  | cons c cs => rfl

theorem parseMetaKv_marker (l : List (Str × Str)) (hne : l ≠ [])
    (hk1 : ∀ p ∈ l, '=' ∉ p.1)
    (hfree : ∀ p ∈ l, '&' ∉ p.1 ++ '=' :: p.2)
    (hnd : (l.map Prod.fst).Nodup) :
    parseMetaKv (ch "META&" ++ joinC '&' (l.map (fun p => p.1 ++ '=' :: p.2))) = l := by
  simp only [parseMetaKv]
  rw [drop_marker (ch "META&") _ rfl]
  have hjoin_ne : joinC '&' (l.map (fun p => p.1 ++ '=' :: p.2)) ≠ [] := by
    cases l with
    | nil => exact absurd rfl hne
    | cons p rest =>
      rw [List.map_cons]
      refine joinC_cons_ne_nil ?_
      simp
  rw [isEmpty_false_of_ne_nil hjoin_ne]
  simp only [Bool.false_eq_true, if_false]
  rw [splitC_joinC (by simpa using hne) (by
    intro e he
    rcases List.mem_map.mp he with ⟨p, hp, rfl⟩
    exact hfree p hp)]
  simpa using metaKv_fold_render l [] hk1 (by simpa using hnd)

/-! ## Rows with substitutions stay non-blank -/

theorem not_blank_of_mem {s : Str} {c : Char} (hc : c ∈ s)
    (hns : pyIsSpace c = false) : isBlankStr s = false := by
  cases hb : isBlankStr s
  · rfl
  · have := List.all_eq_true.mp hb c hc
    rw [hns] at this
    exact absurd this Bool.false_ne_true

theorem row_nonblank {ko : List Str} {acc : List (Str × Str)} {r : Rec}
    (htbl : ∀ p ∈ acc, TokShape p.2)
    (hbase : isBlankStr (buildRow ko [] r) = false) :
    isBlankStr (buildRow ko acc r) = false := by
  cases ko with
  | nil =>
    have h0 : buildRow ([] : List Str) ([] : List (Str × Str)) r = [] := rfl
    rw [h0] at hbase
    exact absurd hbase (by decide)
  | cons k1 ks =>
    cases ks with
    | nil =>
      rw [buildRow_eq, List.map_cons, List.map_nil, joinC_singleton] at hbase ⊢
      unfold cellOf at hbase ⊢
      cases hl : acc.lookup (recGet r k1) with
      | none =>
        have hl0 : (([] : List (Str × Str)).lookup (recGet r k1)) = none := rfl
        rw [hl0] at hbase
        exact hbase
      | some tok =>
        have hsh : TokShape tok := htbl (recGet r k1, tok) (mem_of_lookup hl)
        rcases hsh with ⟨ld, -, -, rfl⟩
        show isBlankStr ('V' :: ld.map Nat.digitChar) = false
        exact not_blank_of_mem (List.mem_cons_self _ _) (by decide)
    | cons k2 ks2 =>
      rw [buildRow_eq]
      refine not_blank_of_mem (joinC_sep_mem ?_) (by decide)
      simp

/-! ## The restricted compact round trip -/

theorem joinKeys_chars {ko : List Str} (h : ∀ k ∈ ko, keyOKb k = true) :
    ∀ c ∈ joinC ',' ko, c ≠ '|' ∧ c ≠ '&' ∧ c ≠ '\n' := by
  intro c hc
  rcases joinC_chars hc with rfl | ⟨k, hk, hck⟩
  · exact ⟨by decide, by decide, by decide⟩
  · have hx := keyOK_chars (h k hk) c hck
    exact ⟨hx.2.1, hx.2.2.1, hx.2.2.2⟩

theorem vmap_text_amp_free {accV : List (Str × Str)}
    (htok : ∀ p ∈ accV, TokShape p.1)
    (hval : ∀ p ∈ accV, valOKb p.2 = true) :
    '&' ∉ joinC ';' (accV.map (fun p => p.1 ++ ':' :: p.2)) := by
  intro hc
  rcases joinC_chars hc with he | ⟨e, he, hce⟩
  · exact absurd he (by decide)
  · rcases List.mem_map.mp he with ⟨p, hp, rfl⟩
    rcases List.mem_append.mp hce with hce | hce
    · exact (tokShape_chars (htok p hp) _ hce).2.2.1 rfl
    · rcases List.mem_cons.mp hce with he2 | hce
      · exact absurd he2 (by decide)
      · exact (valOK_chars (hval p hp) _ hce).2.2.2.1 rfl

theorem parseMetaKv_order (ks : Str) (hks : '&' ∉ ks) :
    parseMetaKv (ch "META&" ++ joinC '&' [ch "ORDER=" ++ ks]) = [(ch "ORDER", ks)] := by
  have h1 : ∀ p ∈ ([(ch "ORDER", ks)] : List (Str × Str)), '=' ∉ p.1 := by
    intro p hp
    rcases List.mem_singleton.mp hp with rfl
    exact show '=' ∉ ch "ORDER" by decide
  have h2 : ∀ p ∈ ([(ch "ORDER", ks)] : List (Str × Str)), '&' ∉ p.1 ++ '=' :: p.2 := by
    intro p hp
    rcases List.mem_singleton.mp hp with rfl
    intro hc
    rcases List.mem_append.mp hc with hc | hc
    · exact absurd hc (show '&' ∉ ch "ORDER" by decide)
    · rcases List.mem_cons.mp hc with he | hc
      · exact absurd he (by decide)
      · exact hks hc
  have harg : (ch "META&" ++ joinC '&' [ch "ORDER=" ++ ks] : Str) =
      ch "META&" ++ joinC '&' (([(ch "ORDER", ks)] : List (Str × Str)).map
        (fun p => p.1 ++ '=' :: p.2)) := rfl
  rw [harg]
  exact parseMetaKv_marker [(ch "ORDER", ks)] (by simp) h1 h2 (by simp)

theorem parseMetaKv_order_vmap (ks E : Str) (hks : '&' ∉ ks) (hE : '&' ∉ E) :
    parseMetaKv (ch "META&" ++ joinC '&' [ch "ORDER=" ++ ks, ch "vmap=" ++ E]) =
      [(ch "ORDER", ks), (ch "vmap", E)] := by
  have h1 : ∀ p ∈ ([(ch "ORDER", ks), (ch "vmap", E)] : List (Str × Str)),
      '=' ∉ p.1 := by
    intro p hp
    rcases List.mem_cons.mp hp with rfl | hp
    · exact show '=' ∉ ch "ORDER" by decide
    · rcases List.mem_singleton.mp hp with rfl
      exact show '=' ∉ ch "vmap" by decide
  have h2 : ∀ p ∈ ([(ch "ORDER", ks), (ch "vmap", E)] : List (Str × Str)),
      '&' ∉ p.1 ++ '=' :: p.2 := by
    intro p hp
    rcases List.mem_cons.mp hp with rfl | hp
    · intro hc
      rcases List.mem_append.mp hc with hc | hc
      · exact absurd hc (show '&' ∉ ch "ORDER" by decide)
      · rcases List.mem_cons.mp hc with he | hc
        · exact absurd he (by decide)
        · exact hks hc
    · rcases List.mem_singleton.mp hp with rfl
      intro hc
      rcases List.mem_append.mp hc with hc | hc
      · exact absurd hc (show '&' ∉ ch "vmap" by decide)
      · rcases List.mem_cons.mp hc with he | hc
        · exact absurd he (by decide)
        · exact hE hc
  have harg : (ch "META&" ++ joinC '&' [ch "ORDER=" ++ ks, ch "vmap=" ++ E] : Str) =
      ch "META&" ++ joinC '&'
        (([(ch "ORDER", ks), (ch "vmap", E)] : List (Str × Str)).map
          (fun p => p.1 ++ '=' :: p.2)) := rfl
  rw [harg]
  exact parseMetaKv_marker [(ch "ORDER", ks), (ch "vmap", E)] (by simp) h1 h2
    (show ([ch "ORDER", ch "vmap"] : List Str).Nodup by decide)

theorem vmapOf_encoder_meta (ko : List Str) (accV : List (Str × Str))
    (hkeysOK : ∀ k ∈ ko, keyOKb k = true)
    (htokV : ∀ p ∈ accV, TokShape p.1)
    (hvalV : ∀ p ∈ accV, valOKb p.2 = true)
    (hndV : (accV.map Prod.fst).Nodup) :
    vmapOf (parseMetaKv (finalMeta ko accV none none)) = accV := by
  have hksamp : '&' ∉ joinC ',' ko := fun hc => (joinKeys_chars hkeysOK '&' hc).2.1 rfl
  cases accV with
  | nil =>
    have harg0 : finalMeta ko [] none none =
        ch "META&" ++ joinC '&' [ch "ORDER=" ++ joinC ',' ko] := by
      unfold finalMeta
      simp only [List.isEmpty_nil, eq_self_iff_true, if_true, List.append_nil,
        List.nil_append]
    have hparse : parseMetaKv (finalMeta ko [] none none) =
        [(ch "ORDER", joinC ',' ko)] := by
      rw [harg0]
      have h := parseMetaKv_order (joinC ',' ko) hksamp
      exact h
    rw [hparse]
    rfl
  | cons q qs =>
    have hampE : '&' ∉ joinC ';' ((q :: qs).map (fun p => p.1 ++ ':' :: p.2)) :=
      vmap_text_amp_free htokV hvalV
    have harg : finalMeta ko (q :: qs) none none =
        ch "META&" ++ joinC '&'
          [ch "ORDER=" ++ joinC ',' ko,
           ch "vmap=" ++ joinC ';' ((q :: qs).map (fun p => p.1 ++ ':' :: p.2))] := by
      unfold finalMeta
      simp only [List.isEmpty_cons, Bool.false_eq_true, if_false, List.append_nil,
        List.nil_append]
    have hparse : parseMetaKv (finalMeta ko (q :: qs) none none) =
        [(ch "ORDER", joinC ',' ko),
         (ch "vmap", joinC ';' ((q :: qs).map (fun p => p.1 ++ ':' :: p.2)))] := by
      rw [harg]
      have h := parseMetaKv_order_vmap (joinC ',' ko)
        (joinC ';' ((q :: qs).map (fun p => p.1 ++ ':' :: p.2))) hksamp hampE
      exact h
    rw [hparse]
    show (if (joinC ';' ((q :: qs).map (fun p => p.1 ++ ':' :: p.2))).isEmpty = true
        then ([] : List (Str × Str))
        else parsePairs (joinC ';' ((q :: qs).map (fun p => p.1 ++ ':' :: p.2)))) =
      q :: qs
    have hEne : joinC ';' ((q :: qs).map (fun p => p.1 ++ ':' :: p.2)) ≠ [] := by
      rw [List.map_cons]
      refine joinC_cons_ne_nil ?_
      cases hq1 : q.1 <;> simp
    rw [isEmpty_false_of_ne_nil hEne]
    simp only [Bool.false_eq_true, if_false]
    refine parsePairs_render (q :: qs) (by simp) ?_ ?_ hndV
    · intro p hp
      constructor
      · intro hc
        exact (not_special_ne (tokShape_chars (htokV p hp) ':' hc).1).2.1 rfl
      · intro hc
        exact (tokShape_chars (htokV p hp) ';' hc).2.2.2.1 rfl
    · intro p hp hc
      exact (valOK_chars (hvalV p hp) ';' hc).2.2.2.2 rfl

/-- Decoding the encoder's own meta/body pair, for any substitution
table satisfying the invariants the accept fold guarantees. -/
theorem decodeCore_of_encoded (records : List Rec) (acc accV : List (Str × Str))
    (hswap : accV = acc.map (fun p => (p.2, p.1)))
    (hndV : (accV.map Prod.fst).Nodup)
    (hpairs : ∀ p ∈ accV, TokShape p.1 ∧
      wordCollision p.1 (payloadText records none none) = false)
    (haccvals : ∀ v ∈ acc.map Prod.fst, v ∈ allValues records)
    (hkv : ∀ r ∈ records, ∀ p ∈ r, keyOKb p.1 = true ∧ valOKb p.2 = true)
    (hks : joinC ',' (keyOrder records) ≠ [])
    (hrows : ∀ r ∈ records, isBlankStr (buildRow (keyOrder records) [] r) = false) :
    decodeCore (finalMeta (keyOrder records) accV none none)
        (ch "BODY|" ++ buildPositionalBody records (keyOrder records) acc) =
      Except.ok (records.map (padRec (keyOrder records))) := by
  have hkeysOK : ∀ k ∈ keyOrder records, keyOKb k = true := by
    intro k hk
    rcases mem_keyOrder.mp hk with ⟨r, hr, hkr⟩
    unfold recKeys at hkr
    rcases List.mem_map.mp hkr with ⟨p, hp, rfl⟩
    exact (hkv r hr p hp).1
  have hvalsOK : ∀ v ∈ allValues records, valOKb v = true := by
    intro v hv
    unfold allValues at hv
    rcases List.mem_flatMap.mp hv with ⟨r, hr, hvr⟩
    rcases List.mem_map.mp hvr with ⟨p, hp, rfl⟩
    exact (hkv r hr p hp).2
  have htbl : ∀ p ∈ acc, TokShape p.2 := by
    intro p hp
    refine (hpairs (p.2, p.1) ?_).1
    rw [hswap]
    exact List.mem_map.mpr ⟨p, hp, rfl⟩
  have htokV : ∀ p ∈ accV, TokShape p.1 := fun p hp => (hpairs p hp).1
  have hvalV : ∀ p ∈ accV, valOKb p.2 = true := by
    intro p hp
    rw [hswap] at hp
    rcases List.mem_map.mp hp with ⟨q2, hq2, rfl⟩
    exact hvalsOK q2.1 (haccvals q2.1 (List.mem_map.mpr ⟨q2, hq2, rfl⟩))
  have hko_ne : keyOrder records ≠ [] := by
    intro h0
    apply hks
    rw [h0]
    rfl
  have hvm := vmapOf_encoder_meta (keyOrder records) accV hkeysOK htokV hvalV hndV
  have hksnl : '\n' ∉ joinC ',' (keyOrder records) := fun hc =>
    (joinKeys_chars hkeysOK '\n' hc).2.2 rfl
  have hheader : parseHeader (bodyHeader records.length (keyOrder records)) =
      some (natToStr records.length, joinC ',' (keyOrder records)) :=
    parseHeader_build records.length (joinC ',' (keyOrder records)) hks hksnl
  have hfreeks : ∀ k ∈ keyOrder records, ',' ∉ k := by
    intro k hk hc
    exact (keyOK_chars (hkeysOK k hk) ',' hc).1 rfl
  have hsplitks : splitC ',' (joinC ',' (keyOrder records)) = keyOrder records :=
    splitC_joinC hko_ne hfreeks
  have hsplitbody : splitC '|' (buildPositionalBody records (keyOrder records) acc) =
      bodyHeader records.length (keyOrder records) ::
        records.map (buildRow (keyOrder records) acc) := by
    unfold buildPositionalBody
    refine splitC_joinC (by simp) ?_
    intro part hpart
    rcases List.mem_cons.mp hpart with rfl | hpart
    · intro hc
      unfold bodyHeader at hc
      rcases List.mem_append.mp hc with hc | hc
      · rcases List.mem_append.mp hc with hc | hc
        · rcases List.mem_append.mp hc with hc | hc
          · rcases List.mem_append.mp hc with hc | hc
            · exact absurd hc (by decide)
            · rcases natToStr_chars _ _ hc with ⟨d, hd, he⟩
              exact (not_special_ne (digitChar_facts d hd).1).2.2.1 he.symm
          · exact absurd hc (by decide)
        · exact (joinKeys_chars hkeysOK '|' hc).1 rfl
      · exact absurd (List.mem_singleton.mp hc) (by decide)
    · rcases List.mem_map.mp hpart with ⟨r, hr, rfl⟩
      intro hc
      rw [buildRow_eq] at hc
      rcases joinC_chars hc with he | ⟨cell, hcell, hcc⟩
      · exact absurd he (by decide)
      · rcases List.mem_map.mp hcell with ⟨k, hk, rfl⟩
        exact (cellOf_chars (fun p hp => (hkv r hr p hp).2) htbl '|' hcc).2.1 rfl
  have hrow : ∀ r ∈ records, ∀ recs,
      decodeRow accV (parseMetaKv (finalMeta (keyOrder records) accV none none))
          (keyOrder records) recs (buildRow (keyOrder records) acc r) =
        recs ++ [padRec (keyOrder records) r] := by
    intro r hr recs
    refine decodeRow_build accV _ acc (keyOrder records) r recs ?_ ?_ ?_ hko_ne
      (keyOrder_nodup records) ?_
    · exact row_nonblank htbl (hrows r hr)
    · intro hc
      rw [buildRow_eq] at hc
      rcases joinC_chars hc with he | ⟨cell, hcell, hcc⟩
      · exact absurd he (by decide)
      · rcases List.mem_map.mp hcell with ⟨k, hk, rfl⟩
        exact (cellOf_chars (fun p hp => (hkv r hr p hp).2) htbl ':' hcc).1 rfl
    · intro k hk hc
      exact (cellOf_chars (fun p hp => (hkv r hr p hp).2) htbl ',' hc).2.2 rfl
    · intro k hk
      exact cellOf_decode records hr hswap hndV hpairs k
  have hfold := decode_rows_fold accV
      (parseMetaKv (finalMeta (keyOrder records) accV none none))
      (keyOrder records) (buildRow (keyOrder records) acc)
      (padRec (keyOrder records)) records hrow []
  have hm : strStarts (ch "META&")
      (finalMeta (keyOrder records) accV none none) = true := by
    unfold finalMeta
    exact strStarts_append _ _
  have hcond : (strStarts (ch "META&") (finalMeta (keyOrder records) accV none none) &&
      strStarts (ch "BODY|")
        (ch "BODY|" ++ buildPositionalBody records (keyOrder records) acc)) = true := by
    rw [hm, strStarts_append]
    rfl
  unfold decodeCore
  rw [if_pos hcond]
  rw [drop_marker (ch "BODY|") _ rfl]
  rw [hsplitbody]
  simp only [hheader]
  rw [hvm, hsplitks, hfold]
  rw [List.nil_append]

/-! ## Claim theorems: concrete scenarios -/

/-- **C3, counterexample**: on a payload without a `data` key, `encode`
does *not* abort with an error: `enc.py` 121-122 returns the object
unchanged (`if 'data' not in obj: return obj`), refuting the claim that
both `encode` and `decode` raise `MalformedContainer`. -/
theorem encode_missing_data_returns_unchanged :
    encode EncPayload.noData = EncOut.untouched := rfl

/-- **C3, amended**: on an input without a `data` key, `decode` raises
`MalformedContainer` (as it also does when `data` is not a dict), while
`encode` returns the payload unchanged without raising. -/
theorem missing_data_behavior :
    decodeData DecInput.noData = Except.error DErr.malformedContainer ∧
    decodeData DecInput.dataNotDict = Except.error DErr.malformedContainer ∧
    encode EncPayload.noData = EncOut.untouched :=
  ⟨rfl, rfl, rfl⟩

/-- **C10**: the empty dataset encodes to the body header
`sensordata[0]{}` (with the empty `ORDER` meta), and decoding that very
output fails with an invalid-header error, because the decoder's
pattern `sensordata[<count>]{<fields>}` requires a nonempty field
list between the braces. -/
theorem empty_dataset_encode_decode :
    encode (EncPayload.payload [] none none) =
      EncOut.encoded (ch "META&ORDER=") (ch "BODY|sensordata[0]{}") none none ∧
    decodeData (DecInput.withData (some (ch "META&ORDER="))
        (some (ch "BODY|sensordata[0]{}"))) =
      Except.error DErr.badHeader := by
  constructor
  · decide
  · decide

/-- **C1, counterexample**: the round trip fails on a value containing
`:`.  For the dataset `[{"a": "x:y"}]`, the encoder escapes the colon
(`x\:y`), but the decoder detects rows by the *presence* of `:` before
unescaping, takes the legacy branch and splits the row at the escaped
colon, reconstructing `[{"x\": "y"}]` instead of `[{"a": "x:y"}]`. -/
theorem roundtrip_fails_on_colon_value :
    encode (EncPayload.payload [[(ch "a", ch "x:y")]] none none) =
      EncOut.encoded (ch "META&ORDER=a") (ch "BODY|sensordata[1]{a}|x\\:y") none none ∧
    decodeData (DecInput.withData (some (ch "META&ORDER=a"))
        (some (ch "BODY|sensordata[1]{a}|x\\:y"))) =
      Except.ok [[(ch "x\\", ch "y")]] ∧
    ([[(ch "x\\", ch "y")]] : List Rec) ≠ [[(ch "a", ch "x:y")]] := by
  refine ⟨by decide, by decide, by decide⟩

/-- **C5, counterexample**: for the scenario dataset with
min-frequency 2, both `"21.5"` and `"C"` are candidates, but the
ranking rule (frequency × length, descending) tries `"21.5"`
(benefit 2·4 = 8) *before* `"C"` (benefit 3·1 = 3) — not `"C"` first as
the claim states. -/
theorem scenario_ranking_counterexample :
    (proposeValueTokens c5Recs (payloadText c5Recs none none) 2).1.map Prod.fst =
      [ch "21.5", ch "C"] ∧
    benefit (countVals (allValues c5Recs)) (ch "21.5") = 8 ∧
    benefit (countVals (allValues c5Recs)) (ch "C") = 3 ∧
    ([ch "21.5", ch "C"] : List Str) ≠ [ch "C", ch "21.5"] := by
  refine ⟨by decide, by decide, by decide, by decide⟩

/-- **C5, amended**: both `"21.5"` and `"C"` are candidates; per the
ranking rule the optimizer tries `"21.5"` (benefit 8) before `"C"`
(benefit 3); and with the fallback cost oracle neither substitution is
accepted, so every body row keeps the literal values (consistently for
all three records) and no vmap is emitted. -/
theorem scenario_ranking_amended :
    (proposeValueTokens c5Recs (payloadText c5Recs none none) 2).1 =
      [(ch "21.5", ch "V1"), (ch "C", ch "V2")] ∧
    encode (EncPayload.payload c5Recs none none) =
      EncOut.encoded (ch "META&ORDER=temp,unit")
        (ch "BODY|sensordata[3]{temp,unit}|21.5,C|21.5,C|19.0,C") none none := by
  refine ⟨by decide, by decide⟩

/-- **C6, counterexample**: an assigned token *can* occur as a
case-insensitive whole word elsewhere in the already-encoded payload
text.  In `c6Recs` the optimizer assigns `V1` to the repeated long
value and accepts it, yet the untouched value `"\nV1"` also contains
`V1` as a whole word (in the JSON dump the collision scan inspects, the
newline is rendered as the word characters `\n`, hiding the match).
The encoded meta+body text contains five whole-word occurrences of
`v1`, while the encoder injected only four (three substituted cells
plus one vmap declaration) — so the token occurs somewhere else. -/
theorem token_whole_word_in_output_counterexample :
    encode (EncPayload.payload c6Recs none none) =
      EncOut.encoded c6Meta c6Body none none ∧
    (proposeValueTokens c6Recs (payloadText c6Recs none none) 2).1 =
      [(c6LongVal, ch "V1")] ∧
    countWordOcc (ch "V1") (lowerStr (c6Meta ++ '|' :: c6Body)) = 5 ∧
    ((allValues c6Recs).filter (fun v => v == c6LongVal)).length + 1 = 4 := by
  refine ⟨by decide, by decide, by decide, by decide⟩

/-- **C1**, amended: the compact round trip holds on the restricted
domain where the structural delimiters cannot interfere: every record
has pairwise-distinct field names, field values avoid `:`, `|`, `,`,
`&`, `;`, field names avoid `,`, `|`, `&` and newline, the
comma-joined Key Order is nonempty, and no baseline body row consists
solely of whitespace.  Then decoding the encoder's output yields each
record padded to the full Key Order: every field name appearing in any
record is present in every reconstructed record, originally present
pairs are reconstructed exactly, and missing fields come back as the
empty string.  (Outside this domain the round trip fails: see the
colon counterexample.) -/
theorem compact_roundtrip_restricted (records : List Rec)
    (hdict : ∀ r ∈ records, (recKeys r).Nodup)
    (hkv : ∀ r ∈ records, ∀ p ∈ r, keyOKb p.1 = true ∧ valOKb p.2 = true)
    (hks : joinC ',' (keyOrder records) ≠ [])
    (hrows : ∀ r ∈ records, isBlankStr (buildRow (keyOrder records) [] r) = false) :
    ∃ meta body,
      encode (EncPayload.payload records none none) =
        EncOut.encoded meta body none none ∧
      decodeData (DecInput.withData (some meta) (some body)) =
        Except.ok (records.map (padRec (keyOrder records))) ∧
      (∀ r ∈ records, recKeys (padRec (keyOrder records) r) = keyOrder records) ∧
      (∀ r ∈ records, ∀ p ∈ r, p ∈ padRec (keyOrder records) r) ∧
      (∀ r ∈ records, ∀ k ∈ keyOrder records, k ∉ recKeys r →
        (k, ([] : Str)) ∈ padRec (keyOrder records) r) := by
  obtain ⟨hndV, hpairs, hswap, -⟩ := encode_fold_inv records none none 2
  have haccvals := encode_acc_values records none none 2
  refine ⟨_, _, encode_eq 2 records none none,
    decodeCore_of_encoded records _ _ hswap hndV hpairs haccvals hkv hks hrows,
    ?_, ?_, ?_⟩
  · intro r hr
    unfold padRec recKeys
    rw [List.map_map]
    exact List.map_id (keyOrder records)
  · intro r hr p hp
    have hk : p.1 ∈ keyOrder records :=
      mem_keyOrder.mpr ⟨r, hr, List.mem_map.mpr ⟨p, hp, rfl⟩⟩
    have hget : recGet r p.1 = p.2 := by
      unfold recGet
      rw [lookup_eq_of_mem_of_nodup (hdict r hr) hp]
    unfold padRec
    refine List.mem_map.mpr ⟨p.1, hk, ?_⟩
    show (p.1, recGet r p.1) = p
    rw [hget]
  · intro r hr k hk hnot
    have hget : recGet r k = [] := by
      unfold recGet
      rw [lookup_none_of_not_mem hnot]
    unfold padRec
    refine List.mem_map.mpr ⟨k, hk, ?_⟩
    show (k, recGet r k) = (k, ([] : Str))
    rw [hget]

/-- Witness for the restricted round trip: the dataset
`[{"a": "x"}, {"b": "y"}]` meets every restriction, and decoding its
encoding returns both records padded to the Key Order `a, b`. -/
theorem compact_roundtrip_restricted_witness :
    ∃ meta body,
      encode (EncPayload.payload [[(ch "a", ch "x")], [(ch "b", ch "y")]] none none) =
        EncOut.encoded meta body none none ∧
      decodeData (DecInput.withData (some meta) (some body)) =
        Except.ok ([[(ch "a", ch "x")], [(ch "b", ch "y")]].map
          (padRec (keyOrder [[(ch "a", ch "x")], [(ch "b", ch "y")]]))) ∧
      (∀ r ∈ [[(ch "a", ch "x")], [(ch "b", ch "y")]],
        recKeys (padRec (keyOrder [[(ch "a", ch "x")], [(ch "b", ch "y")]]) r) =
          keyOrder [[(ch "a", ch "x")], [(ch "b", ch "y")]]) ∧
      (∀ r ∈ [[(ch "a", ch "x")], [(ch "b", ch "y")]], ∀ p ∈ r,
        p ∈ padRec (keyOrder [[(ch "a", ch "x")], [(ch "b", ch "y")]]) r) ∧
      (∀ r ∈ [[(ch "a", ch "x")], [(ch "b", ch "y")]],
        ∀ k ∈ keyOrder [[(ch "a", ch "x")], [(ch "b", ch "y")]], k ∉ recKeys r →
        (k, ([] : Str)) ∈ padRec (keyOrder [[(ch "a", ch "x")], [(ch "b", ch "y")]]) r) :=
  compact_roundtrip_restricted [[(ch "a", ch "x")], [(ch "b", ch "y")]]
    (by decide) (by decide) (by decide) (by decide)

end COIL
